import Mathlib

/-!
# go-clahe: a shallow embedding of the CLAHE core

The Go sources `clahe/histogram.go`, `clahe/picture.go`, `clahe/block.go` and
`clahe/subblock.go` are rendered as Lean functions.

* Go `int` is `Int` (the counts and sizes met here stay far from 64-bit limits);
  Go `/` on `int` truncates toward zero and is `Int.tdiv`.
* Go `uint8` is a `Nat` kept below 256, with `% 256` written out wherever the
  Go arithmetic can wrap.
* A slice is a `List`; an index out of range, a negative `make` length and an
  integer division by zero are run-time panics, rendered as `Except.error`.
* The goroutines are run in one fixed order that respects the wait groups:
  every block's `CalculateHistogram` first, then every sub-block's
  `Interpolate`, in creation order.
-/

namespace Clahe

/-- Run-time failures of the Go program: the panics, a wait on a counter that
nothing will bring to zero any more (`blocked`), and fuel exhaustion of the
one loop whose termination is not structural. -/
inductive Failure where
  | divideByZero
  | indexOutOfRange
  | negativeLen
  | negativeWaitGroup
  | blocked
  | outOfFuel
  deriving DecidableEq, Repr

/-! ## histogram.go -/

/-- `type Histogram []int`. -/
abbrev Histogram := List Int

/-- First loop of `Clip` (lines 34-39): the total count above `limit`. -/
def clipExcess (limit : Int) : Histogram → Int → Int
  | [], excess => excess
  | v :: rest, excess =>
    let buffer := v - limit
    if buffer > 0 then clipExcess limit rest (excess + buffer)
    else clipExcess limit rest excess

/-- Second loop of `Clip` (lines 44-55), the three-way `switch` on each bin;
returns the rewritten bins and the running `excess`. -/
def clipSpread (limit upper incrementPerBin : Int) : Histogram → Int → Histogram × Int
  | [], excess => ([], excess)
  | v :: rest, excess =>
    if v > limit then
      let r := clipSpread limit upper incrementPerBin rest excess
      (limit :: r.1, r.2)
    else if v > upper then
      let r := clipSpread limit upper incrementPerBin rest (excess + (upper - v))
      (limit :: r.1, r.2)
    else
      let r := clipSpread limit upper incrementPerBin rest (excess - incrementPerBin)
      ((v + incrementPerBin) :: r.1, r.2)

/-- Third loop of `Clip` (lines 64-70): add `step` to each bin in order and
leave the loop as soon as `excess < 1`. -/
def clipRest (step : Int) : Histogram → Int → Histogram
  | [], _ => []
  | v :: rest, excess =>
    let excess1 := excess - step
    if excess1 < 1 then (v + step) :: rest
    else (v + step) :: clipRest step rest excess1

/-- `func (histogram Histogram) Clip(limit int)`. The division by
`binCount = len(histogram)` panics on an empty histogram. -/
def Histogram.Clip (histogram : Histogram) (limit : Int) : Except Failure Histogram :=
  let binCount : Int := histogram.length
  let excess := clipExcess limit histogram 0
  if binCount = 0 then .error .divideByZero
  else
    let incrementPerBin := Int.tdiv excess binCount
    let upper := binCount - incrementPerBin
    let r := clipSpread limit upper incrementPerBin histogram excess
    if r.2 > 0 then
      let step0 := 1 + Int.tdiv r.2 binCount
      let step := if step0 < 1 then 1 else step0
      .ok (clipRest step r.1 r.2)
    else .ok r.1

/-- A finite `float32` value, taken as the exact ratio `num / den`. The Go
code rounds every float operation to 24 significant bits; the model keeps the
exact ratio and truncates once, as the specification describes it. -/
structure Ratio where
  num : Int
  den : Int
  deriving DecidableEq, Repr

/-- Go's `int(float32(n) * r)`: the product with the exact ratio, truncated
toward zero. (A zero `den` stands for a Go NaN or infinity; the value here is
then 0 and carries no meaning.) -/
def Ratio.mulTrunc (r : Ratio) (n : Int) : Int := Int.tdiv (n * r.num) r.den

/-- Loop of `Map` (lines 86-92): running sum, scaled value, clamp to `max`. -/
def mapLoop (min max : Int) (scale : Ratio) : Histogram → Int → Histogram
  | [], _ => []
  | v :: rest, sum =>
    let sum1 := sum + v
    let value := min + scale.mulTrunc sum1
    (if value > max then max else value) :: mapLoop min max scale rest sum1

/-- `func (histogram Histogram) Map(min int, max int, width int, height int)`,
with `scale := float32(max-min)/float32(width*height)`. -/
def Histogram.Map (histogram : Histogram) (min max width height : Int) : Histogram :=
  mapLoop min max ⟨max - min, width * height⟩ histogram 0

/-! ## Go slices -/

/-- Index expression `s[i]`. -/
def index {α : Type} (s : List α) (i : Int) : Except Failure α :=
  if i < 0 then .error .indexOutOfRange
  else match s[i.toNat]? with
    | some a => .ok a
    | none => .error .indexOutOfRange

/-- Assignment `s[i] = a`. -/
def assign {α : Type} (s : List α) (i : Int) (a : α) : Except Failure (List α) :=
  if i < 0 then .error .indexOutOfRange
  else if i.toNat < s.length then .ok (s.set i.toNat a)
  else .error .indexOutOfRange

/-- Allocation `make([]T, n)` filled with the zero value of `T`. -/
def make {α : Type} (n : Int) (zero : α) : Except Failure (List α) :=
  if n < 0 then .error .negativeLen else .ok (List.replicate n.toNat zero)

/-- Loop `for i := 0; i < n; i++ { s = body i s }`, leaving at the first panic. -/
def forRange {σ : Type} (n : Int) (body : Nat → σ → Except Failure σ) (s : σ) :
    Except Failure σ :=
  (List.range n.toNat).foldlM (fun st i => body i st) s

/-- Slice expression `s[lo:hi]` on row `row` of the pixel matrix; the result
aliases the row, so it is kept as a view. -/
structure RowView where
  Row : Nat
  Offset : Nat
  Len : Nat
  deriving DecidableEq, Repr

/-! ## Data model: block.go, subblock.go, picture.go -/

/-- `type Block struct`. `Pixels` holds one view per entry (the nil slice is the
empty view); `Notify` holds the sub-blocks by their creation index; the
`Picture` pointer is passed as an argument instead. -/
structure Block where
  Histogram : Histogram
  Pixels : List RowView
  Notify : List Nat
  deriving DecidableEq, Repr

/-- `type SubBlock struct`. The four `*Block` references are positions
`(row, column)` in `Picture.Blocks`; `WaitGroup` is the counter of the
sub-block's `sync.WaitGroup`. -/
structure SubBlock where
  Width : Int
  Height : Int
  OffsetX : Int
  OffsetY : Int
  TopLeft : Nat × Nat
  TopRight : Nat × Nat
  BottomLeft : Nat × Nat
  BottomRight : Nat × Nat
  WaitGroup : Int
  deriving DecidableEq, Repr

/-- `type Picture struct`, without the image file. `SubBlocks` lists the
sub-blocks in creation order (their `Interpolate` goroutines); `WaitGroup` is
the counter of the picture's `sync.WaitGroup`. -/
structure Picture where
  Width : Int
  Height : Int
  BinCount : Nat
  ClipLimit : Int
  ColorMax : Nat
  ColorMin : Nat
  BlockCountX : Int
  BlockCountY : Int
  BlockWidth : Int
  BlockHeight : Int
  Pixels : List (List Nat)
  Blocks : List (List Block)
  LUT : List Nat
  SubBlocks : List SubBlock
  WaitGroup : Int
  deriving DecidableEq, Repr

/-- The nil slice of pixels. -/
def RowView.nil : RowView := ⟨0, 0, 0⟩

/-- `new(Block)`. -/
def Block.new : Block := ⟨[], [], []⟩

/-- `picture.Pixels[y][x]`. -/
def Picture.pixel (pic : Picture) (y x : Int) : Except Failure Nat := do
  let row ← index pic.Pixels y
  index row x

/-- `picture.Pixels[y][x] = v`. -/
def Picture.setPixel (pic : Picture) (y x : Int) (v : Nat) : Except Failure Picture := do
  let row ← index pic.Pixels y
  let row1 ← assign row x v
  let rows ← assign pic.Pixels y row1
  pure { pic with Pixels := rows }

/-- `picture.Blocks[y][x]`. -/
def Picture.block (pic : Picture) (y x : Int) : Except Failure Block := do
  let row ← index pic.Blocks y
  index row x

/-- `*picture.Blocks[y][x] = b`. -/
def Picture.setBlock (pic : Picture) (y x : Int) (b : Block) : Except Failure Picture := do
  let row ← index pic.Blocks y
  let row1 ← assign row x b
  let rows ← assign pic.Blocks y row1
  pure { pic with Blocks := rows }

/-- `picture.Pixels[row][lo:hi]`, as a view. -/
def Picture.rowSlice (pic : Picture) (row lo hi : Int) : Except Failure RowView := do
  let r ← index pic.Pixels row
  if lo < 0 ∨ hi < lo ∨ (r.length : Int) < hi then .error .indexOutOfRange
  else pure ⟨row.toNat, lo.toNat, (hi - lo).toNat⟩

/-- `block.Pixels[y][x]`, read through the view into the picture's rows. -/
def Block.pixel (block : Block) (pic : Picture) (y x : Int) : Except Failure Nat := do
  let v ← index block.Pixels y
  if x < 0 ∨ (v.Len : Int) ≤ x then .error .indexOutOfRange
  else pic.pixel v.Row (v.Offset + x)

/-! ## picture.go: GenerateLUT -/

/-- Loop of `GenerateLUT` (lines 132-134) over the `uint8` counter `i`; `fuel`
bounds the number of condition checks. -/
def lutLoop (colorMin colorMax binSize : Nat) : Nat → Nat → List Nat → Except Failure (List Nat)
  | 0, _, _ => .error .outOfFuel
  | fuel + 1, i, lut =>
    if i < colorMax then
      if binSize = 0 then .error .divideByZero
      else do
        let lut1 ← assign lut i (((i + 256 - colorMin) % 256) / binSize)
        lutLoop colorMin colorMax binSize fuel ((i + 1) % 256) lut1
    else .ok lut

/-- `func (picture *Picture) GenerateLUT()`, all arithmetic in `uint8`. -/
def Picture.GenerateLUT (pic : Picture) : Except Failure Picture :=
  if pic.BinCount = 0 then .error .divideByZero
  else do
    let binSize := (1 + ((pic.ColorMax + 256 - pic.ColorMin) % 256) / pic.BinCount) % 256
    let lut ← lutLoop pic.ColorMin pic.ColorMax binSize 257 pic.ColorMin (List.replicate 256 0)
    pure { pic with LUT := lut }

/-! ## histogram.go: Generate -/

/-- Body of the loops of `Generate` (line 20):
`histogram[block.Picture.LUT[block.Pixels[y][x]]]++`. -/
def generateAt (pic : Picture) (block : Block) (x y : Nat) (histogram : Histogram) :
    Except Failure Histogram := do
  let p ← block.pixel pic y x
  let bin ← index pic.LUT p
  let count ← index histogram bin
  assign histogram bin (count + 1)

/-- `func (histogram Histogram) Generate(block *Block)`: `x` outer, `y` inner. -/
def Histogram.Generate (histogram : Histogram) (pic : Picture) (block : Block) :
    Except Failure Histogram :=
  forRange pic.BlockWidth
    (fun x h => forRange pic.BlockHeight (fun y h1 => generateAt pic block x y h1) h)
    histogram

/-! ## block.go -/

/-- `func (block *Block) PleaseNotify(subBlock *SubBlock)` on the block at
`ref`; the sub-block is named by its creation index. -/
def Picture.PleaseNotify (pic : Picture) (ref : Nat × Nat) (subBlock : Nat) :
    Except Failure Picture := do
  let b ← pic.block ref.1 ref.2
  pic.setBlock ref.1 ref.2 { b with Notify := b.Notify ++ [subBlock] }

/-- `subBlock.WaitGroup.Done()` for the sub-block of creation index `i`. -/
def Picture.subBlockDone (pic : Picture) (i : Nat) : Except Failure Picture := do
  let sb ← index pic.SubBlocks i
  if sb.WaitGroup - 1 < 0 then .error .negativeWaitGroup
  else do
    let subs ← assign pic.SubBlocks i { sb with WaitGroup := sb.WaitGroup - 1 }
    pure { pic with SubBlocks := subs }

/-- `func (block *Block) CalculateHistogram(x, y int)` on `picture.Blocks[y][x]`. -/
def Picture.CalculateHistogram (pic : Picture) (x y : Int) : Except Failure Picture := do
  let block ← pic.block y x
  let h0 ← make 256 (0 : Int)
  let h1 ← Histogram.Generate h0 pic block
  let h2 ← Histogram.Clip h1 pic.ClipLimit
  let h3 := Histogram.Map h2 pic.ColorMin pic.ColorMax pic.BlockWidth pic.BlockHeight
  let pic1 ← pic.setBlock y x { block with Histogram := h3 }
  block.Notify.foldlM (fun st sb => st.subBlockDone sb) pic1

/-! ## subblock.go -/

/-- The interpolated value of lines 58-63, before the conversion to `uint8`. -/
def interpolateValue (width height : Int) (x y : Int) (tl tr bl br : Int) : Int :=
  let inverseX := width - x
  let inverseY := height - y
  Int.tdiv
    ((inverseY * ((inverseX * tl) + (x * tr))) + (y * ((inverseX * bl) + (x * br))))
    (width * height)

/-- Lines 55-63 of `Interpolate` at window position `(x, y)`: from the pixel
value `p` read there, the bin `LUT[p]`, the four histogram entries, and the
interpolated value converted to `uint8`. -/
def SubBlock.gray (sb : SubBlock) (pic : Picture) (x y : Nat) (p : Nat) :
    Except Failure Nat := do
  let gray ← index pic.LUT p
  let topLeft ← pic.block sb.TopLeft.1 sb.TopLeft.2
  let tl ← index topLeft.Histogram gray
  let topRight ← pic.block sb.TopRight.1 sb.TopRight.2
  let tr ← index topRight.Histogram gray
  let bottomLeft ← pic.block sb.BottomLeft.1 sb.BottomLeft.2
  let bl ← index bottomLeft.Histogram gray
  let bottomRight ← pic.block sb.BottomRight.1 sb.BottomRight.2
  let br ← index bottomRight.Histogram gray
  if sb.Width * sb.Height = 0 then .error .divideByZero
  else pure (interpolateValue sb.Width sb.Height x y tl tr bl br % 256).toNat

/-- Body of the loops of `Interpolate` (lines 53-65) at window position
`(x, y)`: read the pixel, compute the new value, write it at the same place. -/
def interpolateAt (sb : SubBlock) (x y : Nat) (pic : Picture) : Except Failure Picture := do
  let p ← pic.pixel (sb.OffsetY + y) (sb.OffsetX + x)
  let g ← sb.gray pic x y p
  pic.setPixel (sb.OffsetY + y) (sb.OffsetX + x) g

/-- The two loops of `Interpolate` (lines 47-69): `x` outer, `y` inner. -/
def interpolateLoops (sb : SubBlock) (pic : Picture) : Except Failure Picture :=
  forRange sb.Width
    (fun x st => forRange sb.Height (fun y st1 => interpolateAt sb x y st1) st)
    pic

/-- `func (subBlock *SubBlock) Interpolate()` for the sub-block of creation
index `i`: wait for the four blocks, rewrite the window, signal the picture. -/
def Picture.Interpolate (pic : Picture) (i : Nat) : Except Failure Picture := do
  let sb ← index pic.SubBlocks i
  if sb.WaitGroup ≠ 0 then .error .blocked
  else do
    let pic1 ← interpolateLoops sb pic
    if pic1.WaitGroup - 1 < 0 then .error .negativeWaitGroup
    else pure { pic1 with WaitGroup := pic1.WaitGroup - 1 }

/-! ## picture.go: CLAHE and PrepareInterpolation -/

/-- Lines 170-174 of `CLAHE`: the pixel views of the block at `(x, y)`. -/
def Picture.blockViews (pic : Picture) (x y : Nat) : Except Failure (List RowView) := do
  let views ← make pic.BlockWidth RowView.nil
  forRange pic.BlockHeight
    (fun i vs => do
      let offset := (x : Int) * pic.BlockWidth
      let v ← pic.rowSlice (pic.BlockHeight * y + i) offset (offset + pic.BlockWidth)
      assign vs i v)
    views

/-- Lines 162-178 of `CLAHE`: row `y` of the block grid. -/
def Picture.prepareRow (pic : Picture) (y : Nat) : Except Failure Picture := do
  let row ← make pic.BlockCountX Block.new
  let rows ← assign pic.Blocks y row
  forRange pic.BlockCountX
    (fun x st => do
      let views ← st.blockViews x y
      st.setBlock y x { Block.new with Pixels := views })
    { pic with Blocks := rows }

/-- Lines 161-178 of `CLAHE`: the block grid. -/
def Picture.prepareBlocks (pic : Picture) : Except Failure Picture := do
  let rows ← make pic.BlockCountX ([] : List Block)
  forRange pic.BlockCountY (fun y st => st.prepareRow y) { pic with Blocks := rows }

/-- The `switch` of lines 204-219 and 222-237: for position `k` along an axis
with `count` blocks of size `size`, the sub-block extent and its two block
indices `(extent, first, second)`. -/
def axisCase (count size : Int) (k : Int) : Int × Int × Int :=
  if k = 0 then (Int.tdiv size 2, 0, 0)
  else if k = count then (Int.tdiv size 2, count - 1, count - 1)
  else (size, k - 1, k)

/-- A `*Block` taken from `picture.Blocks[row][col]`, as a position. -/
def Picture.blockRef (pic : Picture) (row col : Int) : Except Failure (Nat × Nat) := do
  let _ ← pic.block row col
  pure (row.toNat, col.toNat)

/-- Lines 239-272 of `PrepareInterpolation`: one sub-block, at column position
`blockX`, for the row data `(subHeight, top, bottom)`; the state carries
`offsetX`. -/
def Picture.prepareSubBlock (subHeight top bottom offsetY : Int) (blockX : Nat)
    (st : Picture × Int) : Except Failure (Picture × Int) := do
  let pic := st.1
  let offsetX := st.2
  let horizontal := axisCase pic.BlockCountX pic.BlockWidth blockX
  let subWidth := horizontal.1
  let left := horizontal.2.1
  let right := horizontal.2.2
  let topLeft ← pic.blockRef top left
  let topRight ← pic.blockRef top right
  let bottomLeft ← pic.blockRef bottom left
  let bottomRight ← pic.blockRef bottom right
  let subBlock : SubBlock :=
    ⟨subWidth, subHeight, offsetX, offsetY, topLeft, topRight, bottomLeft, bottomRight, 4⟩
  let id := pic.SubBlocks.length
  let pic0 := { pic with SubBlocks := pic.SubBlocks ++ [subBlock] }
  let pic1 ← pic0.PleaseNotify topLeft id
  let pic2 ← pic1.PleaseNotify topRight id
  let pic3 ← pic2.PleaseNotify bottomLeft id
  let pic4 ← pic3.PleaseNotify bottomRight id
  pure ({ pic4 with WaitGroup := pic4.WaitGroup + 1 }, offsetX + subWidth)

/-- Lines 201-275 of `PrepareInterpolation`: one row of sub-blocks, at row
position `blockY`; the state carries `offsetY`. -/
def Picture.prepareSubRow (blockY : Nat) (st : Picture × Int) :
    Except Failure (Picture × Int) := do
  let pic := st.1
  let offsetY := st.2
  let vertical := axisCase pic.BlockCountY pic.BlockHeight blockY
  let subHeight := vertical.1
  let top := vertical.2.1
  let bottom := vertical.2.2
  let r ← forRange (pic.BlockCountX + 1)
    (fun blockX s => Picture.prepareSubBlock subHeight top bottom offsetY blockX s) (pic, 0)
  pure (r.1, offsetY + subHeight)

/-- `func (picture *Picture) PrepareInterpolation()`. -/
def Picture.PrepareInterpolation (pic : Picture) : Except Failure Picture := do
  let r ← forRange (pic.BlockCountY + 1) (fun blockY s => Picture.prepareSubRow blockY s) (pic, 0)
  pure r.1

/-- Lines 141-183 of `CLAHE`: everything before the first `go` statement that
starts a block. No pixel is read or written here. -/
def Picture.setup (pic : Picture) (blockCountX blockCountY : Int) (clipLimit : Ratio) :
    Except Failure Picture := do
  let pic1 := if pic.BinCount < 128 then { pic with BinCount := 128 } else pic
  let pic2 := { pic1 with BlockCountX := blockCountX, BlockCountY := blockCountY }
  if pic2.BlockCountX = 0 then .error .divideByZero
  else if pic2.BlockCountY = 0 then .error .divideByZero
  else do
    let pic3 := { pic2 with
      BlockWidth := Int.tdiv pic2.Width pic2.BlockCountX,
      BlockHeight := Int.tdiv pic2.Height pic2.BlockCountY }
    let pic4 := { pic3 with
      ClipLimit := clipLimit.mulTrunc
        (Int.tdiv (pic3.BlockWidth * pic3.BlockHeight) (pic3.BinCount : Int)) }
    let pic5 ← pic4.GenerateLUT
    let pic6 ← pic5.prepareBlocks
    let pic7 := { pic6 with SubBlocks := [], WaitGroup := 0 }
    pic7.PrepareInterpolation

/-- Lines 186-190 of `CLAHE`, the block goroutines run one after the other:
`x` outer, `y` inner. -/
def Picture.runBlocks (pic : Picture) : Except Failure Picture :=
  forRange pic.BlockCountX
    (fun x st => forRange pic.BlockCountY (fun y st1 => st1.CalculateHistogram x y) st)
    pic

/-- The sub-block goroutines run one after the other, in creation order, then
`picture.WaitGroup.Wait()` of line 193. -/
def Picture.runSubBlocks (pic : Picture) : Except Failure Picture := do
  let pic1 ← forRange pic.SubBlocks.length (fun i st => st.Interpolate i) pic
  if pic1.WaitGroup ≠ 0 then .error .blocked else pure pic1

/-- `func (picture *Picture) CLAHE(blockCountX, blockCountY int, clipLimit float32)`. -/
def Picture.CLAHE (pic : Picture) (blockCountX blockCountY : Int) (clipLimit : Ratio) :
    Except Failure Picture := do
  let pic1 ← pic.setup blockCountX blockCountY clipLimit
  let pic2 ← pic1.runBlocks
  pic2.runSubBlocks

/-- A picture as the loader hands it over: a `Height x Width` matrix of 8-bit
pixels, with 8-bit `ColorMin`, `ColorMax` and `BinCount`. -/
def Picture.ofPixels (pixels : List (List Nat)) (width height : Int)
    (colorMin colorMax binCount : Nat) : Picture :=
  { Width := width, Height := height, BinCount := binCount, ClipLimit := 0,
    ColorMax := colorMax, ColorMin := colorMin,
    BlockCountX := 0, BlockCountY := 0, BlockWidth := 0, BlockHeight := 0,
    Pixels := pixels, Blocks := [], LUT := [], SubBlocks := [], WaitGroup := 0 }

/-! ## Predicates used by the statements -/

deriving instance DecidableEq for Except

/-- The sub-block's output window contains the pixel `(x, y)`. -/
def SubBlock.covers (sb : SubBlock) (x y : Int) : Bool :=
  decide (sb.OffsetX ≤ x ∧ x < sb.OffsetX + sb.Width ∧
    sb.OffsetY ≤ y ∧ y < sb.OffsetY + sb.Height)

/-- A `height x width` matrix with every pixel equal to `v`. -/
def uniformPixels (width height v : Nat) : List (List Nat) :=
  List.replicate height (List.replicate width v)

/-- The fields of a picture that the block and sub-block bookkeeping never
writes: sizes, intensity range, block geometry, pixels and lookup table. -/
def Picture.frame (pic : Picture) :
    Int × Int × Nat × Int × Nat × Nat × Int × Int × Int × Int × List (List Nat) × List Nat :=
  (pic.Width, pic.Height, pic.BinCount, pic.ClipLimit, pic.ColorMax, pic.ColorMin,
    pic.BlockCountX, pic.BlockCountY, pic.BlockWidth, pic.BlockHeight, pic.Pixels, pic.LUT)

/-- Every block of the grid has a histogram satisfying `Q`. -/
def Picture.HistAll (Q : Histogram → Prop) (pic : Picture) : Prop :=
  ∀ row ∈ pic.Blocks, ∀ b ∈ row, Q b.Histogram

/-- The sub-block created at grid position `(blockX, blockY)` with running
offsets `(offsetX, offsetY)`. -/
def subBlockAt (pic : Picture) (blockX blockY : Nat) (offsetX offsetY : Int) : SubBlock :=
  ⟨(axisCase pic.BlockCountX pic.BlockWidth blockX).1,
    (axisCase pic.BlockCountY pic.BlockHeight blockY).1, offsetX, offsetY,
    ((axisCase pic.BlockCountY pic.BlockHeight blockY).2.1.toNat,
      (axisCase pic.BlockCountX pic.BlockWidth blockX).2.1.toNat),
    ((axisCase pic.BlockCountY pic.BlockHeight blockY).2.1.toNat,
      (axisCase pic.BlockCountX pic.BlockWidth blockX).2.2.toNat),
    ((axisCase pic.BlockCountY pic.BlockHeight blockY).2.2.toNat,
      (axisCase pic.BlockCountX pic.BlockWidth blockX).2.1.toNat),
    ((axisCase pic.BlockCountY pic.BlockHeight blockY).2.2.toNat,
      (axisCase pic.BlockCountX pic.BlockWidth blockX).2.2.toNat), 4⟩

/-- A 2 x 2 picture with every pixel equal to 7, as the loader hands it over. -/
def uniformExample : Picture := Picture.ofPixels (uniformPixels 2 2 7) 2 2 7 7 128

/-- The picture after `CLAHE(1, 1, 1.0)` on `uniformExample`. -/
def uniformExampleResult : Picture :=
  match uniformExample.CLAHE 1 1 ⟨1, 1⟩ with
  | .ok pic => pic
  | .error _ => uniformExample

/-- State of the loops of `Interpolate` on sub-block `sb`, started in picture
`s`, once the window positions in `proc` have been visited: only pixels have
changed, a visited position holds the `gray` of its pixel in `s`, every other
pixel is as in `s`. -/
def InterpInv (sb : SubBlock) (s : Picture) (proc : Nat → Nat → Prop) (t : Picture) : Prop :=
  t = { s with Pixels := t.Pixels } ∧
  (∀ x y, proc x y → t.pixel (sb.OffsetY + y) (sb.OffsetX + x) =
    (s.pixel (sb.OffsetY + y) (sb.OffsetX + x) >>= fun p => sb.gray s x y p)) ∧
  (∀ Y X, (∀ x y, proc x y → ¬ (Y = sb.OffsetY + (y : Int) ∧ X = sb.OffsetX + (x : Int))) →
    t.pixel Y X = s.pixel Y X)

/-- A 2 x 2 picture with four different pixels, as the loader hands it over. -/
def singleTileExample : Picture := Picture.ofPixels [[10, 20], [30, 40]] 2 2 10 40 128

/-- The picture `singleTileExample` after `setup(1, 1, 1.0)` and the block phase
of `CLAHE`, before any sub-block has interpolated. -/
def singleTileReady : Picture :=
  match singleTileExample.setup 1 1 ⟨1, 1⟩ >>= fun p => p.runBlocks with
  | .ok pic => pic
  | .error _ => singleTileExample

/-- The histogram of the single block of `singleTileReady`. -/
def singleTileBlock : Block :=
  match singleTileReady.block 0 0 with
  | .ok b => b
  | .error _ => Block.new

/-- The first sub-block of `singleTileReady`. -/
def singleTileSubBlock : SubBlock :=
  match index singleTileReady.SubBlocks 0 with
  | .ok sb => sb
  | .error _ => ⟨0, 0, 0, 0, (0, 0), (0, 0), (0, 0), (0, 0), 0⟩

/-- The picture `singleTileExample` after `setup(1, 1, 1.0)`, before any block
has run. -/
def singleTileSetup : Picture :=
  match singleTileExample.setup 1 1 ⟨1, 1⟩ with
  | .ok pic => pic
  | .error _ => singleTileExample

/-! ## picture.go: Read -/

/-- The `switch` of lines 86-91 of `Read` on one gray value `v`; the state is
`(ColorMin, ColorMax)`. Only the first matching case runs. -/
def readSwitch (v : Nat) (st : Nat × Nat) : Nat × Nat :=
  if v < st.1 then (v, st.2)
  else if v > st.2 then (st.1, v)
  else st

/-- Lines 76-95 of `Read`: the scan of the decoded image, `x` outer and `y`
inner, started with `ColorMin = 255` and `ColorMax = 0`; `gray y x` is the 8-bit
value `color.GrayModel.Convert(img.At(x, y)).Y`. Returns `(ColorMin, ColorMax)`. -/
def readScan (width height : Int) (gray : Nat → Nat → Nat) : Nat × Nat :=
  (List.range width.toNat).foldl
    (fun st x => (List.range height.toNat).foldl (fun st1 y => readSwitch (gray y x) st1) st)
    (255, 0)

/-- `func (picture *Picture) Read(path string) error` after the file is decoded
to an image of bounds `width x height` with gray values `gray y x`: the scan,
then the row slices of lines 98-103 (`make([][]uint8, picture.Width)` indexed by
`y < picture.Height`). -/
def Picture.Read (width height : Int) (gray : Nat → Nat → Nat) : Except Failure Picture := do
  let range := readScan width height gray
  let rows ← make width ([] : List Nat)
  let pixels ← forRange height
    (fun y ps => assign ps y ((List.range width.toNat).map (fun x => gray y x))) rows
  pure { Width := width, Height := height, BinCount := 0, ClipLimit := 0,
         ColorMax := range.2, ColorMin := range.1,
         BlockCountX := 0, BlockCountY := 0, BlockWidth := 0, BlockHeight := 0,
         Pixels := pixels, Blocks := [], LUT := [], SubBlocks := [], WaitGroup := 0 }

/-- The gray values of an image given as a matrix of rows. -/
def grayOf (image : List (List Nat)) (y x : Nat) : Nat :=
  ((image[y]?).bind (fun row => row[x]?)).getD 0

/-- The body of the loops of `Interpolate` run over the window positions
`(x, y)` in an arbitrary order, instead of `x` outer and `y` inner. -/
def interpolateInOrder (sb : SubBlock) (order : List (Nat × Nat)) (pic : Picture) :
    Except Failure Picture :=
  order.foldlM (fun st pos => interpolateAt sb pos.1 pos.2 st) pic

/-- The picture `singleTileReady` after the first sub-block has interpolated. -/
def singleTileFirstDone : Picture :=
  match singleTileReady.Interpolate 0 with
  | .ok pic => pic
  | .error _ => singleTileReady

/-- The running offset before position `k` of an axis: the extents of the
positions `0 .. k-1` added up, as `offsetX += subWidth` does. -/
def axisOffset (count size : Int) : Nat → Int
  | 0 => 0
  | k + 1 => axisOffset count size k + (axisCase count size k).1

/-- Row `ky` of the sub-blocks that `PrepareInterpolation` creates. -/
def gridSubRow (pic : Picture) (ky : Nat) : List SubBlock :=
  (List.range (pic.BlockCountX + 1).toNat).map (fun kx =>
    subBlockAt pic kx ky (axisOffset pic.BlockCountX pic.BlockWidth kx)
      (axisOffset pic.BlockCountY pic.BlockHeight ky))

/-- The sub-blocks that `PrepareInterpolation` creates, in creation order. -/
def gridSubBlocks (pic : Picture) : List SubBlock :=
  (List.range (pic.BlockCountY + 1).toNat).flatMap (fun ky => gridSubRow pic ky)

/-- A 4 x 4 picture with sixteen different pixels, as the loader hands it over. -/
def gridExample : Picture :=
  Picture.ofPixels [[10, 20, 30, 40], [50, 60, 70, 80], [90, 100, 110, 120],
    [130, 140, 150, 160]] 4 4 10 160 128

/-- The picture `gridExample` after `setup(2, 2, 1.0)`. -/
def gridSetup : Picture :=
  match gridExample.setup 2 2 ⟨1, 1⟩ with
  | .ok pic => pic
  | .error _ => gridExample

/-- A 5 x 5 picture, as the loader hands it over: with 2 x 2 tiles the blocks are
2 x 2 and the last row and column are remainder pixels. -/
def remainderExample : Picture :=
  Picture.ofPixels [[10, 20, 30, 40, 50], [60, 70, 80, 90, 100], [110, 120, 130, 140, 150],
    [160, 170, 180, 190, 200], [210, 220, 230, 240, 250]] 5 5 10 250 128

/-- The picture after `CLAHE(2, 2, 1.0)` on `remainderExample`. -/
def remainderResult : Picture :=
  match remainderExample.CLAHE 2 2 ⟨1, 1⟩ with
  | .ok pic => pic
  | .error _ => remainderExample

/-- The bin of the pixel at position `(x, y)` of a block's view:
`block.Picture.LUT[block.Pixels[y][x]]` in line 20 of `Generate`. -/
def tileBin (pic : Picture) (block : Block) (x y : Nat) : Except Failure Nat := do
  let p ← block.pixel pic y x
  index pic.LUT p

/-- The number of positions `y < n` in column `x` of a block's view whose pixel
falls in bin `b`. -/
def columnCount (pic : Picture) (block : Block) (b : Nat) (x n : Nat) : Nat :=
  ((List.range n).filter (fun y => decide (tileBin pic block x y = .ok b))).length

/-- The number of positions in the first `k` columns of a block's
`BlockWidth x BlockHeight` view whose pixel falls in bin `b`. -/
def columnsCount (pic : Picture) (block : Block) (b : Nat) (k : Nat) : Nat :=
  ((List.range k).map (fun x => columnCount pic block b x pic.BlockHeight.toNat)).sum

/-- The number of pixels `p` in a block's `BlockWidth x BlockHeight` view with
`LUT[p] = b`. -/
def tileCount (pic : Picture) (block : Block) (b : Nat) : Nat :=
  columnsCount pic block b pic.BlockWidth.toNat

/-- The single block of `singleTileSetup`. -/
def singleTileSetupBlock : Block :=
  match singleTileSetup.block 0 0 with
  | .ok b => b
  | .error _ => Block.new

/-- The sum of `f` over all blocks of the grid. -/
def gridSum (f : Block → Nat) (pic : Picture) : Nat :=
  (pic.Blocks.map (fun row => (row.map f).sum)).sum

/-- How often sub-block `i` occurs in the `Notify` lists of all blocks together. -/
def notifyCount (pic : Picture) (i : Nat) : Nat :=
  gridSum (fun b => b.Notify.count i) pic

/-- How often sub-block `i` occurs in the `Notify` lists of the blocks that have
not run `CalculateHistogram` yet (their histogram is still nil). -/
def pendingCount (pic : Picture) (i : Nat) : Nat :=
  gridSum (fun b => if b.Histogram = [] then b.Notify.count i else 0) pic

/-- Every block of the grid sits at a row below `BlockCountY` and a column below
`BlockCountX`. -/
def Picture.InGrid (pic : Picture) : Prop :=
  ∀ (Y X : Int) (b : Block), pic.block Y X = .ok b →
    0 ≤ Y ∧ Y < pic.BlockCountY ∧ 0 ≤ X ∧ X < pic.BlockCountX

/-- State of the block phase started in picture `s`, once `CalculateHistogram` has
run for the blocks at the positions in `done`: those blocks have a histogram,
the others have none, and every sub-block's counter equals the number of its
entries in the `Notify` lists of the blocks still to run. -/
def RunInv (s : Picture) (done : Int → Int → Prop) (t : Picture) : Prop :=
  t.frame = s.frame ∧ t.InGrid ∧
  (∀ (Y X : Int) (b : Block), t.block Y X = .ok b →
    (done Y X → b.Histogram ≠ []) ∧ (¬ done Y X → b.Histogram = [])) ∧
  (∀ (j : Nat) (sb : SubBlock), t.SubBlocks[j]? = some sb →
    sb.WaitGroup = (pendingCount t j : Int))

/-- The picture `gridSetup` after the block phase of `CLAHE`. -/
def gridBlocksDone : Picture :=
  match gridSetup.runBlocks with
  | .ok pic => pic
  | .error _ => gridSetup

/-! ## Theorems -/

set_option maxRecDepth 100000

/-- C1 (failing input): on the 256-bin histogram whose first 128 bins hold 16
and whose other bins hold 0, `Clip(8)` returns bins that sum to 2049, while the
bins summed to 2048 before: the redistribution loop hands out 171 steps of 3
for a remaining excess of 512. -/
theorem clip_changes_total :
    (List.replicate 128 16 ++ List.replicate 128 0 : Histogram).sum = 2048 ∧
    (Histogram.Clip (List.replicate 128 16 ++ List.replicate 128 0) 8).map List.sum
      = .ok 2049 := by
  decide

/-- C2 (failing input): on 256 bins that all hold 10, `Clip(3)` leaves 11 in the
first 224 bins, above the limit 3 (and above the count before); on one bin of
1024 and 255 empty bins, `Clip(16)` leaves 17 in the first bin. -/
theorem clip_exceeds_limit :
    Histogram.Clip (List.replicate 256 10) 3
      = .ok (List.replicate 224 11 ++ List.replicate 32 3) ∧
    Histogram.Clip (1024 :: List.replicate 255 0) 16
      = .ok (17 :: (List.replicate 242 4 ++ List.replicate 13 3)) := by
  decide

/-- C3 (failing input): for a 6 x 6 picture and 2 x 2 tiles (blocks of 3 x 3) the
sub-block columns are `[0,1)`, `[1,4)` and `[4,5)`: the pixel `(5, 0)` lies in
`[0, 2*3) x [0, 2*3)` and in no output window. -/
theorem windows_miss_last_column :
    ((Picture.ofPixels (uniformPixels 6 6 0) 6 6 0 0 128).setup 2 2 ⟨1, 1⟩).map
      (fun p => (p.BlockCountX * p.BlockWidth, p.BlockCountY * p.BlockHeight,
        (p.SubBlocks.take 3).map (fun s => (s.OffsetX, s.OffsetX + s.Width)),
        p.SubBlocks.any (fun s => s.covers 5 0)))
      = .ok (6, 6, [(0, 1), (1, 4), (4, 5)], false) := by
  decide

/-- C9 (failing input): on a 2 x 2 picture, `CLAHE(1, 2, 1.0)` panics with an
index out of range when it stores row 1 of a block grid allocated with
`BlockCountX = 1` rows, and `CLAHE(2, 1, 1.0)` panics when it stores entry 1 of
a block view list allocated with `BlockWidth = 1` entries. -/
theorem clahe_panics_on_valid_input :
    (Picture.ofPixels (uniformPixels 2 2 7) 2 2 7 7 128).CLAHE 1 2 ⟨1, 1⟩
      = .error .indexOutOfRange ∧
    (Picture.ofPixels (uniformPixels 2 2 7) 2 2 7 7 128).CLAHE 2 1 ⟨1, 1⟩
      = .error .indexOutOfRange := by
  decide

/-! ### Map -/

theorem mapLoop_length (min max : Int) (r : Ratio) (l : Histogram) (s : Int) :
    (mapLoop min max r l s).length = l.length := by
  induction l generalizing s with
  | nil => rfl
  | cons v rest ih => simp [mapLoop, ih]

@[simp] theorem index_natCast {α : Type} (s : List α) (i : Nat) :
    index s (i : Int) = match s[i]? with
      | some a => .ok a
      | none => .error .indexOutOfRange := by
  simp [index]

theorem index_eq_ok {α : Type} {s : List α} {i : Int} {a : α} :
    index s i = .ok a ↔ 0 ≤ i ∧ s[i.toNat]? = some a := by
  unfold index
  by_cases hi : i < 0
  · simp [hi]
  · simp only [hi, if_false]
    cases h : s[i.toNat]? <;> simp
    omega

theorem assign_natCast {α : Type} (s : List α) (i : Nat) (a : α) :
    assign s (i : Int) a = if i < s.length then .ok (s.set i a) else .error .indexOutOfRange := by
  simp [assign]

theorem assign_eq_ok {α : Type} {s s1 : List α} {i : Int} {a : α} :
    assign s i a = .ok s1 ↔ 0 ≤ i ∧ i.toNat < s.length ∧ s1 = s.set i.toNat a := by
  unfold assign
  by_cases hi : i < 0
  · simp [hi]
  · by_cases hl : i.toNat < s.length
    · simp [hi, hl, eq_comm]
      omega
    · simp [hi, hl]

/-! ### GenerateLUT -/

theorem lutLoop_spec (cmin cmax bs : Nat) (hbs : bs ≠ 0) (hmax : cmax < 256) :
    ∀ (fuel i : Nat) (lut : List Nat), lut.length = 256 → cmax - i < fuel →
      ∃ lut1, lutLoop cmin cmax bs fuel i lut = .ok lut1 ∧ lut1.length = 256 ∧
        ∀ j, lut1[j]? =
          if i ≤ j ∧ j < cmax then some (((j + 256 - cmin) % 256) / bs) else lut[j]? := by
  intro fuel
  induction fuel with
  | zero => intro i lut _ h; omega
  | succ fuel ih =>
    intro i lut hlen hfuel
    unfold lutLoop
    by_cases hi : i < cmax
    · have hi256 : i < lut.length := by omega
      have hnext : (i + 1) % 256 = i + 1 := Nat.mod_eq_of_lt (by omega)
      simp only [hi, if_true, if_neg hbs, assign_natCast, hi256, hnext]
      obtain ⟨lut1, h1, h2, h3⟩ := ih (i + 1)
        (lut.set i (((i + 256 - cmin) % 256) / bs)) (by simpa using hlen) (by omega)
      refine ⟨lut1, ?_, h2, ?_⟩
      · simpa using h1
      · intro j
        rw [h3 j, List.getElem?_set]
        by_cases hij : i = j
        · subst hij
          simp [hi, hi256]
        · have : (i + 1 ≤ j ∧ j < cmax) ↔ (i ≤ j ∧ j < cmax) := by omega
          simp only [hij, if_false, this]
    · refine ⟨lut, by simp [hi], hlen, ?_⟩
      intro j
      have : ¬ (i ≤ j ∧ j < cmax) := by omega
      simp [this]

/-- What `GenerateLUT` computes for 8-bit fields and a non-zero bin size. -/
theorem generateLUT_spec (pic : Picture) (hmin : pic.ColorMin < 256) (hmax : pic.ColorMax < 256)
    (hbin : 128 ≤ pic.BinCount) :
    ∃ lut, pic.GenerateLUT = .ok { pic with LUT := lut } ∧ lut.length = 256 ∧
      ∀ j, lut[j]? =
        if pic.ColorMin ≤ j ∧ j < pic.ColorMax then
          some (((j + 256 - pic.ColorMin) % 256) /
            ((1 + ((pic.ColorMax + 256 - pic.ColorMin) % 256) / pic.BinCount) % 256))
        else (List.replicate 256 0)[j]? := by
  have hq : ((pic.ColorMax + 256 - pic.ColorMin) % 256) / pic.BinCount < 2 := by
    rw [Nat.div_lt_iff_lt_mul (by omega)]
    have := Nat.mod_lt (pic.ColorMax + 256 - pic.ColorMin) (by decide : 256 > 0)
    omega
  have hbs : (1 + ((pic.ColorMax + 256 - pic.ColorMin) % 256) / pic.BinCount) % 256 ≠ 0 := by
    generalize ((pic.ColorMax + 256 - pic.ColorMin) % 256) / pic.BinCount = q at hq
    omega
  obtain ⟨lut, h1, h2, h3⟩ := lutLoop_spec pic.ColorMin pic.ColorMax _ hbs hmax 257
    pic.ColorMin (List.replicate 256 0) (by simp) (by omega)
  refine ⟨lut, ?_, h2, h3⟩
  unfold Picture.GenerateLUT
  have hb0 : pic.BinCount ≠ 0 := by omega
  simp only [if_neg hb0]
  simp only [h1]
  rfl

/-- C7: for 8-bit `ColorMin <= ColorMax` and `BinCount` in `[128, 255]`,
`GenerateLUT` returns a 256-entry table whose entry at every intensity `i` with
`ColorMin <= i < ColorMax` is below `BinCount`. -/
theorem lut_range (pic : Picture) (hle : pic.ColorMin ≤ pic.ColorMax) (hmax : pic.ColorMax < 256)
    (hlo : 128 ≤ pic.BinCount) (hhi : pic.BinCount ≤ 255) :
    ∃ pic1, pic.GenerateLUT = .ok pic1 ∧ pic1.LUT.length = 256 ∧
      ∀ i, pic.ColorMin ≤ i → i < pic.ColorMax →
        ∃ b, pic1.LUT[i]? = some b ∧ b < pic.BinCount := by
  obtain ⟨lut, h1, h2, h3⟩ := generateLUT_spec pic (by omega) hmax hlo
  refine ⟨_, h1, h2, ?_⟩
  intro i hi1 hi2
  refine ⟨((i + 256 - pic.ColorMin) % 256) /
    ((1 + ((pic.ColorMax + 256 - pic.ColorMin) % 256) / pic.BinCount) % 256), ?_, ?_⟩
  · show lut[i]? = _
    rw [h3 i, if_pos ⟨hi1, hi2⟩]
  · have hr : (pic.ColorMax + 256 - pic.ColorMin) % 256 = pic.ColorMax - pic.ColorMin := by omega
    have hi : (i + 256 - pic.ColorMin) % 256 = i - pic.ColorMin := by omega
    rw [hr, hi]
    by_cases hsmall : pic.ColorMax - pic.ColorMin < pic.BinCount
    · rw [Nat.div_eq_of_lt hsmall]
      simp
      omega
    · have hq : (pic.ColorMax - pic.ColorMin) / pic.BinCount = 1 := by
        apply Nat.div_eq_of_lt_le <;> omega
      rw [hq]
      simp
      omega

/-- Witness for C7: `ColorMin = 10`, `ColorMax = 250`, `BinCount = 128`. -/
theorem lut_range_witness :
    ∃ pic1, (Picture.ofPixels [] 0 0 10 250 128).GenerateLUT = .ok pic1 ∧
      pic1.LUT.length = 256 ∧
      ∀ i, (Picture.ofPixels [] 0 0 10 250 128).ColorMin ≤ i →
        i < (Picture.ofPixels [] 0 0 10 250 128).ColorMax →
        ∃ b, pic1.LUT[i]? = some b ∧ b < (Picture.ofPixels [] 0 0 10 250 128).BinCount :=
  lut_range (Picture.ofPixels [] 0 0 10 250 128) (by decide) (by decide) (by decide) (by decide)

/-! ### Loops -/

theorem foldlM_inv {σ α : Type} (P : σ → Prop) (f : σ → α → Except Failure σ) :
    ∀ (l : List α) (s s1 : σ), (∀ a ∈ l, ∀ t t1, P t → f t a = .ok t1 → P t1) → P s →
      l.foldlM f s = .ok s1 → P s1 := by
  intro l
  induction l with
  | nil =>
    intro s s1 _ h0 h
    simp only [List.foldlM_nil] at h
    cases h
    exact h0
  | cons a rest ih =>
    intro s s1 hstep h0 h
    rw [List.foldlM_cons] at h
    cases hfa : f s a with
    | error e => rw [hfa] at h; cases h
    | ok t =>
      rw [hfa] at h
      exact ih t s1 (fun b hb => hstep b (List.mem_cons_of_mem _ hb))
        (hstep a (List.mem_cons_self _ _) s t h0 hfa) h

theorem forRange_inv {σ : Type} (P : σ → Prop) (n : Int) (body : Nat → σ → Except Failure σ)
    (s s1 : σ) (hstep : ∀ i t t1, i < n.toNat → P t → body i t = .ok t1 → P t1) (h0 : P s)
    (h : forRange n body s = .ok s1) : P s1 :=
  foldlM_inv P (fun st i => body i st) (List.range n.toNat) s s1
    (fun i hi t t1 => hstep i t t1 (List.mem_range.mp hi)) h0 h

theorem forRange_succ {σ : Type} (n : Nat) (body : Nat → σ → Except Failure σ) (s : σ) :
    forRange ((n + 1 : Nat) : Int) body s =
      (forRange (n : Int) body s >>= fun t => body n t) := by
  simp only [forRange, Int.toNat_ofNat, List.range_succ, List.foldlM_append,
    List.foldlM_cons, List.foldlM_nil]
  cases List.foldlM (fun st i => body i st) s (List.range n) with
  | error e => rfl
  | ok t =>
    show (body n t >>= pure) = body n t
    cases body n t <;> rfl

theorem forRange_nonpos {σ : Type} (n : Int) (hn : n ≤ 0) (body : Nat → σ → Except Failure σ)
    (s : σ) : forRange n body s = .ok s := by
  have : n.toNat = 0 := by omega
  simp [forRange, this]
  rfl

theorem forRange_toNat {σ : Type} (n : Int) (body : Nat → σ → Except Failure σ) (s : σ) :
    forRange ((n.toNat : Nat) : Int) body s = forRange n body s := by
  unfold forRange
  rw [Int.toNat_ofNat]

/-- Loop rule with an indexed invariant: if every iteration started in the
invariant succeeds and re-establishes it, the loop succeeds. -/
theorem forRange_total {σ : Type} (I : Nat → σ → Prop) (n : Int)
    (body : Nat → σ → Except Failure σ) (s : σ) (h0 : I 0 s)
    (hstep : ∀ i t, i < n.toNat → I i t → ∃ t1, body i t = .ok t1 ∧ I (i + 1) t1) :
    ∃ s1, forRange n body s = .ok s1 ∧ I n.toNat s1 := by
  have key : ∀ k : Nat, k ≤ n.toNat → ∃ s1, forRange (k : Int) body s = .ok s1 ∧ I k s1 := by
    intro k
    induction k with
    | zero => intro _; exact ⟨s, forRange_nonpos _ (by simp) _ _, h0⟩
    | succ k ih =>
      intro hk
      obtain ⟨t, ht, hI⟩ := ih (by omega)
      obtain ⟨t1, ht1, hI1⟩ := hstep k t (by omega) hI
      refine ⟨t1, ?_, hI1⟩
      rw [forRange_succ, ht]
      exact ht1
  obtain ⟨s1, h1, h2⟩ := key n.toNat le_rfl
  refine ⟨s1, ?_, h2⟩
  rw [← forRange_toNat]
  exact h1

/-- Loop rule with an indexed invariant, for a loop known to succeed. -/
theorem forRange_ind {σ : Type} (I : Nat → σ → Prop) (n : Int)
    (body : Nat → σ → Except Failure σ) (s s1 : σ) (h0 : I 0 s)
    (hstep : ∀ i t t1, i < n.toNat → I i t → body i t = .ok t1 → I (i + 1) t1)
    (h : forRange n body s = .ok s1) : I n.toNat s1 := by
  have key : ∀ k : Nat, k ≤ n.toNat → ∀ t, forRange (k : Int) body s = .ok t → I k t := by
    intro k
    induction k with
    | zero =>
      intro _ t ht
      rw [forRange_nonpos _ (by simp)] at ht
      cases ht
      exact h0
    | succ k ih =>
      intro hk t ht
      rw [forRange_succ] at ht
      cases hk1 : forRange (k : Int) body s with
      | error e => rw [hk1] at ht; cases ht
      | ok u =>
        rw [hk1] at ht
        exact hstep k u t (by omega) (ih (by omega) u hk1) ht
  apply key n.toNat le_rfl
  rw [forRange_toNat]
  exact h

/-! ### Results of `Except` computations -/

theorem bind_ok_iff {α β : Type} (x : Except Failure α) (f : α → Except Failure β) (b : β) :
    (x >>= f) = .ok b ↔ ∃ a, x = .ok a ∧ f a = .ok b := by
  cases x with
  | error e => simp [bind, Except.bind]
  | ok a => simp [bind, Except.bind]

theorem index_lt_length {α : Type} {s : List α} {i : Int} {a : α} (h : index s i = .ok a) :
    i.toNat < s.length := by
  have := (index_eq_ok.mp h).2
  exact (List.getElem?_eq_some_iff.mp this).1

theorem index_mem {α : Type} {s : List α} {i : Int} {a : α} (h : index s i = .ok a) : a ∈ s :=
  (List.getElem?_eq_some_iff.mp (index_eq_ok.mp h).2).2 ▸ List.getElem_mem _

theorem index_set {α : Type} (s : List α) (i : Nat) (a : α) (hi : i < s.length) (j : Int) :
    index (s.set i a) j = if j = (i : Int) then .ok a else index s j := by
  unfold index
  by_cases hj : j < 0
  · have : j ≠ (i : Int) := by omega
    simp [hj, this]
  · simp only [hj, if_false, List.getElem?_set]
    by_cases hij : j = (i : Int)
    · subst hij
      simp [hi]
    · have : i ≠ j.toNat := by omega
      simp [hij, this]

/-! ### Pixels -/

theorem setPixel_spec {pic pic1 : Picture} {y x : Int} {v : Nat}
    (h : pic.setPixel y x v = .ok pic1) :
    pic1 = { pic with Pixels := pic1.Pixels } ∧
    ∀ Y X, pic1.pixel Y X = if Y = y ∧ X = x then .ok v else pic.pixel Y X := by
  unfold Picture.setPixel at h
  simp only [bind_ok_iff] at h
  obtain ⟨row, hrow, row1, hrow1, rows, hrows, hpic⟩ := h
  cases hpic
  refine ⟨rfl, ?_⟩
  obtain ⟨hy0, hylt, rfl⟩ := assign_eq_ok.mp hrows
  obtain ⟨hx0, hxlt, rfl⟩ := assign_eq_ok.mp hrow1
  intro Y X
  unfold Picture.pixel
  show (index (pic.Pixels.set y.toNat (row.set x.toNat v)) Y >>= fun r => index r X) = _
  rw [index_set _ _ _ hylt]
  have hyy : (y.toNat : Int) = y := Int.toNat_of_nonneg hy0
  have hxx : (x.toNat : Int) = x := Int.toNat_of_nonneg hx0
  by_cases hY : Y = y
  · subst hY
    simp only [hyy, if_true, true_and]
    show index (row.set x.toNat v) X = _
    rw [index_set _ _ _ hxlt, hxx, hrow]
    rfl
  · have : ¬ (Y = (y.toNat : Int)) := by omega
    rw [if_neg this, if_neg (fun hc => hY hc.1)]

theorem setPixel_same {pic : Picture} {y x : Int} {v : Nat} (h : pic.pixel y x = .ok v) :
    pic.setPixel y x v = .ok pic := by
  unfold Picture.pixel at h
  simp only [bind_ok_iff] at h
  obtain ⟨row, hrow, hp⟩ := h
  have hx := index_eq_ok.mp hp
  have hy := index_eq_ok.mp hrow
  have hxl := index_lt_length hp
  have hyl := index_lt_length hrow
  unfold Picture.setPixel
  simp only [bind_ok_iff]
  refine ⟨row, hrow, row.set x.toNat v, assign_eq_ok.mpr ⟨hx.1, hxl, rfl⟩,
    pic.Pixels.set y.toNat (row.set x.toNat v), assign_eq_ok.mpr ⟨hy.1, hyl, rfl⟩, ?_⟩
  have h1 : row.set x.toNat v = row := by
    apply List.ext_getElem? 
    intro j
    rw [List.getElem?_set]
    by_cases hj : x.toNat = j
    · subst hj; simp [hxl, hx.2]
    · simp [hj]
  have h2 : pic.Pixels.set y.toNat row = pic.Pixels := by
    apply List.ext_getElem?
    intro j
    rw [List.getElem?_set]
    by_cases hj : y.toNat = j
    · subst hj; simp [hyl, hy.2]
    · simp [hj]
  rw [h1, h2]
  rfl

/-! ### Blocks -/

theorem block_mem {pic : Picture} {y x : Int} {b : Block} (h : pic.block y x = .ok b) :
    ∃ row ∈ pic.Blocks, b ∈ row := by
  unfold Picture.block at h
  simp only [bind_ok_iff] at h
  obtain ⟨row, hrow, hb⟩ := h
  exact ⟨row, index_mem hrow, index_mem hb⟩

theorem block_histAll {Q : Histogram → Prop} {pic : Picture} {y x : Int} {b : Block}
    (hQ : pic.HistAll Q) (h : pic.block y x = .ok b) : Q b.Histogram := by
  obtain ⟨row, hrow, hb⟩ := block_mem h
  exact hQ row hrow b hb

theorem setBlock_spec {pic pic1 : Picture} {y x : Int} {b : Block}
    (h : pic.setBlock y x b = .ok pic1) :
    pic1 = { pic with Blocks := pic1.Blocks } ∧
    (∀ row ∈ pic1.Blocks, ∀ c ∈ row, c = b ∨ ∃ row0 ∈ pic.Blocks, c ∈ row0) ∧
    ∀ Y X, pic1.block Y X = if Y = y ∧ X = x then .ok b else pic.block Y X := by
  unfold Picture.setBlock at h
  simp only [bind_ok_iff] at h
  obtain ⟨row, hrow, row1, hrow1, rows, hrows, hpic⟩ := h
  cases hpic
  obtain ⟨hy0, hylt, rfl⟩ := assign_eq_ok.mp hrows
  obtain ⟨hx0, hxlt, rfl⟩ := assign_eq_ok.mp hrow1
  refine ⟨rfl, ?_, ?_⟩
  · intro r hr c hc
    rcases List.mem_or_eq_of_mem_set hr with hr1 | hr1
    · exact Or.inr ⟨r, hr1, hc⟩
    · subst hr1
      rcases List.mem_or_eq_of_mem_set hc with hc1 | hc1
      · exact Or.inr ⟨row, index_mem hrow, hc1⟩
      · exact Or.inl hc1
  · intro Y X
    unfold Picture.block
    show (index (pic.Blocks.set y.toNat (row.set x.toNat b)) Y >>= fun r => index r X) = _
    rw [index_set _ _ _ hylt]
    have hyy : (y.toNat : Int) = y := Int.toNat_of_nonneg hy0
    have hxx : (x.toNat : Int) = x := Int.toNat_of_nonneg hx0
    by_cases hY : Y = y
    · subst hY
      simp only [hyy, if_true, true_and]
      show index (row.set x.toNat b) X = _
      rw [index_set _ _ _ hxlt, hxx, hrow]
      rfl
    · have : ¬ (Y = (y.toNat : Int)) := by omega
      rw [if_neg this, if_neg (fun hc => hY hc.1)]

theorem setBlock_frame {pic pic1 : Picture} {y x : Int} {b : Block}
    (h : pic.setBlock y x b = .ok pic1) :
    pic1.frame = pic.frame ∧ pic1.SubBlocks = pic.SubBlocks ∧ pic1.WaitGroup = pic.WaitGroup := by
  have := (setBlock_spec h).1
  rw [this]
  exact ⟨rfl, rfl, rfl⟩

theorem setBlock_histAll {Q : Histogram → Prop} {pic pic1 : Picture} {y x : Int} {b : Block}
    (hQ : pic.HistAll Q) (hb : Q b.Histogram) (h : pic.setBlock y x b = .ok pic1) :
    pic1.HistAll Q := by
  intro row hrow c hc
  rcases (setBlock_spec h).2.1 row hrow c hc with rfl | ⟨row0, hrow0, hc0⟩
  · exact hb
  · exact hQ row0 hrow0 c hc0

theorem pleaseNotify_spec {Q : Histogram → Prop} {pic pic1 : Picture} {ref : Nat × Nat}
    {i : Nat} (h : pic.PleaseNotify ref i = .ok pic1) :
    pic1.frame = pic.frame ∧ pic1.SubBlocks = pic.SubBlocks ∧
    pic1.WaitGroup = pic.WaitGroup ∧ (pic.HistAll Q → pic1.HistAll Q) := by
  unfold Picture.PleaseNotify at h
  simp only [bind_ok_iff] at h
  obtain ⟨b, hb, hset⟩ := h
  obtain ⟨h1, h2, h3⟩ := setBlock_frame hset
  exact ⟨h1, h2, h3, fun hQ =>
    setBlock_histAll (b := { b with Notify := b.Notify ++ [i] }) hQ
      (block_histAll (b := b) hQ hb) hset⟩

theorem subBlockDone_spec {pic pic1 : Picture} {i : Nat} (h : pic.subBlockDone i = .ok pic1) :
    pic1.frame = pic.frame ∧ pic1.Blocks = pic.Blocks ∧ pic1.WaitGroup = pic.WaitGroup := by
  unfold Picture.subBlockDone at h
  simp only [bind_ok_iff] at h
  obtain ⟨sb, _, h⟩ := h
  split at h
  · cases h
  · simp only [bind_ok_iff] at h
    obtain ⟨subs, _, h⟩ := h
    cases h
    exact ⟨rfl, rfl, rfl⟩

/-! ### The block grid -/

theorem make_eq_ok {α : Type} {n : Int} {zero : α} {l : List α} (h : make n zero = .ok l) :
    0 ≤ n ∧ l = List.replicate n.toNat zero := by
  unfold make at h
  split at h
  · cases h
  · cases h
    exact ⟨by omega, rfl⟩

theorem prepareRow_spec {Q : Histogram → Prop} (hQ0 : Q []) {pic pic1 : Picture} {y : Nat}
    (hQ : pic.HistAll Q) (h : pic.prepareRow y = .ok pic1) :
    pic1.frame = pic.frame ∧ pic1.SubBlocks = pic.SubBlocks ∧
    pic1.WaitGroup = pic.WaitGroup ∧ pic1.HistAll Q := by
  unfold Picture.prepareRow at h
  simp only [bind_ok_iff] at h
  obtain ⟨row, hrow, rows, hrows, h⟩ := h
  obtain ⟨_, rfl⟩ := make_eq_ok hrow
  obtain ⟨_, _, rfl⟩ := assign_eq_ok.mp hrows
  refine forRange_inv
    (fun t => t.frame = pic.frame ∧ t.SubBlocks = pic.SubBlocks ∧
      t.WaitGroup = pic.WaitGroup ∧ t.HistAll Q) _ _ _ _ ?_ ?_ h
  · intro x t t1 _ ht hbody
    simp only [bind_ok_iff] at hbody
    obtain ⟨views, _, hset⟩ := hbody
    obtain ⟨h1, h2, h3⟩ := setBlock_frame hset
    exact ⟨h1.trans ht.1, h2.trans ht.2.1, h3.trans ht.2.2.1,
      setBlock_histAll (b := { Block.new with Pixels := views }) ht.2.2.2 hQ0 hset⟩
  · refine ⟨rfl, rfl, rfl, ?_⟩
    intro r hr c hc
    rcases List.mem_or_eq_of_mem_set hr with hr1 | hr1
    · exact hQ r hr1 c hc
    · subst hr1
      rw [(List.mem_replicate.mp hc).2]
      exact hQ0

theorem prepareBlocks_spec {Q : Histogram → Prop} (hQ0 : Q []) {pic pic1 : Picture}
    (h : pic.prepareBlocks = .ok pic1) :
    pic1.frame = pic.frame ∧ pic1.SubBlocks = pic.SubBlocks ∧
    pic1.WaitGroup = pic.WaitGroup ∧ pic1.HistAll Q := by
  unfold Picture.prepareBlocks at h
  simp only [bind_ok_iff] at h
  obtain ⟨rows, hrows, h⟩ := h
  obtain ⟨_, rfl⟩ := make_eq_ok hrows
  refine forRange_inv
    (fun t => t.frame = pic.frame ∧ t.SubBlocks = pic.SubBlocks ∧
      t.WaitGroup = pic.WaitGroup ∧ t.HistAll Q) _ _ _ _ ?_ ?_ h
  · intro y t t1 _ ht hbody
    obtain ⟨h1, h2, h3, h4⟩ := prepareRow_spec hQ0 ht.2.2.2 hbody
    exact ⟨h1.trans ht.1, h2.trans ht.2.1, h3.trans ht.2.2.1, h4⟩
  · refine ⟨rfl, rfl, rfl, ?_⟩
    intro r hr c hc
    rw [(List.mem_replicate.mp hr).2] at hc
    cases hc

/-! ### PrepareInterpolation -/

/-- The sub-block that `PrepareInterpolation` creates at column position
`blockX`, for the row data `(subHeight, top, bottom)` and the running offsets. -/
theorem prepareSubBlock_spec {Q : Histogram → Prop} {subHeight top bottom offsetY : Int}
    {blockX : Nat} {pic pic1 : Picture} {offsetX offsetX1 : Int}
    (h : Picture.prepareSubBlock subHeight top bottom offsetY blockX (pic, offsetX)
      = .ok (pic1, offsetX1)) :
    pic1.frame = pic.frame ∧
    pic1.SubBlocks = pic.SubBlocks ++
      [⟨(axisCase pic.BlockCountX pic.BlockWidth blockX).1, subHeight, offsetX, offsetY,
        (top.toNat, (axisCase pic.BlockCountX pic.BlockWidth blockX).2.1.toNat),
        (top.toNat, (axisCase pic.BlockCountX pic.BlockWidth blockX).2.2.toNat),
        (bottom.toNat, (axisCase pic.BlockCountX pic.BlockWidth blockX).2.1.toNat),
        (bottom.toNat, (axisCase pic.BlockCountX pic.BlockWidth blockX).2.2.toNat), 4⟩] ∧
    offsetX1 = offsetX + (axisCase pic.BlockCountX pic.BlockWidth blockX).1 ∧
    pic1.WaitGroup = pic.WaitGroup + 1 ∧ (pic.HistAll Q → pic1.HistAll Q) := by
  unfold Picture.prepareSubBlock at h
  simp only [bind_ok_iff, Picture.blockRef] at h
  obtain ⟨tl, ⟨_, _, htl⟩, tr, ⟨_, _, htr⟩, bl, ⟨_, _, hbl⟩, br, ⟨_, _, hbr⟩,
    p1, hp1, p2, hp2, p3, hp3, p4, hp4, hres⟩ := h
  cases htl; cases htr; cases hbl; cases hbr
  cases hres
  obtain ⟨a1, b1, c1, d1⟩ := pleaseNotify_spec (Q := Q) hp1
  obtain ⟨a2, b2, c2, d2⟩ := pleaseNotify_spec (Q := Q) hp2
  obtain ⟨a3, b3, c3, d3⟩ := pleaseNotify_spec (Q := Q) hp3
  obtain ⟨a4, b4, c4, d4⟩ := pleaseNotify_spec (Q := Q) hp4
  refine ⟨?_, ?_, rfl, ?_, ?_⟩
  · exact (a4.trans (a3.trans (a2.trans a1)))
  · exact (b4.trans (b3.trans (b2.trans b1)))
  · show p4.WaitGroup + 1 = pic.WaitGroup + 1
    rw [c4, c3, c2, c1]
  · intro hQ
    exact d4 (d3 (d2 (d1 hQ)))

theorem frame_geometry {a b : Picture} (h : a.frame = b.frame) :
    a.BlockCountX = b.BlockCountX ∧ a.BlockCountY = b.BlockCountY ∧
    a.BlockWidth = b.BlockWidth ∧ a.BlockHeight = b.BlockHeight := by
  simp only [Picture.frame, Prod.mk.injEq] at h
  exact ⟨h.2.2.2.2.2.2.1, h.2.2.2.2.2.2.2.1, h.2.2.2.2.2.2.2.2.1, h.2.2.2.2.2.2.2.2.2.1⟩

theorem frame_image {a b : Picture} (h : a.frame = b.frame) :
    a.Pixels = b.Pixels ∧ a.LUT = b.LUT ∧ a.ColorMin = b.ColorMin ∧ a.ColorMax = b.ColorMax ∧
    a.ClipLimit = b.ClipLimit ∧ a.BinCount = b.BinCount ∧ a.Width = b.Width ∧
    a.Height = b.Height := by
  simp only [Picture.frame, Prod.mk.injEq] at h
  exact ⟨h.2.2.2.2.2.2.2.2.2.2.1, h.2.2.2.2.2.2.2.2.2.2.2, h.2.2.2.2.2.1, h.2.2.2.2.1,
    h.2.2.2.1, h.2.2.1, h.1, h.2.1⟩

theorem subBlockAt_congr {a b : Picture} (h : a.frame = b.frame) (bx by1 : Nat) (ox oy : Int) :
    subBlockAt a bx by1 ox oy = subBlockAt b bx by1 ox oy := by
  obtain ⟨h1, h2, h3, h4⟩ := frame_geometry h
  simp only [subBlockAt, h1, h2, h3, h4]

/-- Every sub-block that `PrepareInterpolation` adds is a `subBlockAt` of a grid
position `blockX <= BlockCountX`, `blockY <= BlockCountY`; the frame and the
histograms are left alone. -/
theorem prepareInterpolation_spec {Q : Histogram → Prop} {R : SubBlock → Prop}
    {pic pic1 : Picture}
    (hR : ∀ (bx by1 : Nat) (ox oy : Int), (bx : Int) ≤ pic.BlockCountX →
      (by1 : Int) ≤ pic.BlockCountY → R (subBlockAt pic bx by1 ox oy))
    (h0 : ∀ sb ∈ pic.SubBlocks, R sb) (h : pic.PrepareInterpolation = .ok pic1) :
    pic1.frame = pic.frame ∧ (pic.HistAll Q → pic1.HistAll Q) ∧
    ∀ sb ∈ pic1.SubBlocks, R sb := by
  unfold Picture.PrepareInterpolation at h
  simp only [bind_ok_iff] at h
  obtain ⟨r, hr, hpic⟩ := h
  cases hpic
  refine forRange_inv
    (fun (t : Picture × Int) => t.1.frame = pic.frame ∧ (pic.HistAll Q → t.1.HistAll Q) ∧
      ∀ sb ∈ t.1.SubBlocks, R sb) _ _ _ _ ?_ ⟨rfl, id, h0⟩ hr
  intro blockY t t1 hby ht hbody
  unfold Picture.prepareSubRow at hbody
  simp only [bind_ok_iff] at hbody
  obtain ⟨r1, hr1, ht1⟩ := hbody
  cases ht1
  obtain ⟨g1, g2, g3, g4⟩ := frame_geometry ht.1
  refine forRange_inv
    (fun (u : Picture × Int) => u.1.frame = pic.frame ∧ (pic.HistAll Q → u.1.HistAll Q) ∧
      ∀ sb ∈ u.1.SubBlocks, R sb) _ _ (t.1, 0) r1 ?_ ht hr1
  intro blockX u u1 hbx hu hsub
  obtain ⟨upic, uoff⟩ := u
  obtain ⟨u1pic, u1off⟩ := u1
  obtain ⟨k1, k2, _, _, k5⟩ := prepareSubBlock_spec (Q := Q) hsub
  obtain ⟨f1, f2, f3, f4⟩ := frame_geometry hu.1
  refine ⟨k1.trans hu.1, fun hQ => k5 (hu.2.1 hQ), ?_⟩
  intro sb hsb
  rw [k2] at hsb
  rcases List.mem_append.mp hsb with hsb1 | hsb1
  · exact hu.2.2 sb hsb1
  · rw [List.mem_singleton] at hsb1
    subst hsb1
    have := hR blockX blockY uoff t.2 (by omega) (by omega)
    simp only [subBlockAt] at this
    have f1a : upic.BlockCountX = pic.BlockCountX := f1
    have f3a : upic.BlockWidth = pic.BlockWidth := f3
    simp only [f1a, f3a, g2, g4]
    exact this

/-! ### setup -/

theorem generateLUT_frame {pic pic1 : Picture} (h : pic.GenerateLUT = .ok pic1) :
    pic1 = { pic with LUT := pic1.LUT } := by
  unfold Picture.GenerateLUT at h
  split at h
  · cases h
  · simp only [bind_ok_iff] at h
    obtain ⟨lut, _, h⟩ := h
    cases h
    rfl

/-- What `setup` leaves behind when it returns: the geometry computed from the
arguments, the image untouched, empty histograms, and sub-blocks that are all
`subBlockAt` of a grid position. -/
theorem setup_spec {R : SubBlock → Prop} {pic pic1 : Picture} {bx by1 : Int} {clip : Ratio}
    (hR : ∀ q : Picture, q.BlockCountX = bx → q.BlockCountY = by1 →
      q.BlockWidth = Int.tdiv pic.Width bx → q.BlockHeight = Int.tdiv pic.Height by1 →
      ∀ (kx ky : Nat) (ox oy : Int), (kx : Int) ≤ bx → (ky : Int) ≤ by1 →
        R (subBlockAt q kx ky ox oy))
    (h : pic.setup bx by1 clip = .ok pic1) :
    bx ≠ 0 ∧ by1 ≠ 0 ∧
    pic1.Pixels = pic.Pixels ∧ pic1.ColorMin = pic.ColorMin ∧ pic1.ColorMax = pic.ColorMax ∧
    pic1.Width = pic.Width ∧ pic1.Height = pic.Height ∧
    pic1.BlockCountX = bx ∧ pic1.BlockCountY = by1 ∧
    pic1.BlockWidth = Int.tdiv pic.Width bx ∧ pic1.BlockHeight = Int.tdiv pic.Height by1 ∧
    pic1.BinCount = (if pic.BinCount < 128 then 128 else pic.BinCount) ∧
    pic1.ClipLimit = clip.mulTrunc (Int.tdiv (Int.tdiv pic.Width bx * Int.tdiv pic.Height by1)
      ((if pic.BinCount < 128 then 128 else pic.BinCount : Nat) : Int)) ∧
    pic1.HistAll (fun hist => hist = []) ∧ ∀ sb ∈ pic1.SubBlocks, R sb := by
  unfold Picture.setup at h
  by_cases hb : pic.BinCount < 128 <;>
  · simp only [hb, if_true, if_false] at h ⊢
    split at h
    · cases h
    rename_i hbx
    split at h
    · cases h
    rename_i hby
    simp only [bind_ok_iff] at h
    obtain ⟨p5, h5, p6, h6, h7⟩ := h
    have e5 := generateLUT_frame h5
    obtain ⟨f6, _, _, q6⟩ := prepareBlocks_spec (Q := fun hist => hist = []) rfl h6
    obtain ⟨g6, i6⟩ := frame_geometry f6, frame_image f6
    rw [e5] at g6 i6
    simp only at g6 i6
    have hR7 := hR { p6 with SubBlocks := [], WaitGroup := 0 } g6.1 g6.2.1 g6.2.2.1 g6.2.2.2
    obtain ⟨f7, q7, r7⟩ := @prepareInterpolation_spec (fun hist => hist = []) R
      { p6 with SubBlocks := [], WaitGroup := 0 } pic1
      (fun kx ky ox oy hkx hky => hR7 kx ky ox oy (by rw [← g6.1]; exact hkx)
        (by rw [← g6.2.1]; exact hky))
      (fun sb hsb => by cases hsb) h7
    obtain ⟨g7, i7⟩ := frame_geometry f7, frame_image f7
    simp only at g7 i7
    refine ⟨hbx, hby, ?_, ?_, ?_, ?_, ?_, ?_, ?_, ?_, ?_, ?_, ?_, q7 q6, r7⟩
    · rw [i7.1, i6.1]
    · rw [i7.2.2.1, i6.2.2.1]
    · rw [i7.2.2.2.1, i6.2.2.2.1]
    · rw [i7.2.2.2.2.2.2.1, i6.2.2.2.2.2.2.1]
    · rw [i7.2.2.2.2.2.2.2, i6.2.2.2.2.2.2.2]
    · rw [g7.1, g6.1]
    · rw [g7.2.1, g6.2.1]
    · rw [g7.2.2.1, g6.2.2.1]
    · rw [g7.2.2.2, g6.2.2.2]
    · rw [i7.2.2.2.2.2.1, i6.2.2.2.2.2.1]
    · rw [i7.2.2.2.2.1, i6.2.2.2.2.1]

/-! ### The block phase -/

theorem calculateHistogram_spec {Q : Histogram → Prop} {pic pic1 : Picture} {x y : Int}
    (hmap : ∀ h : Histogram,
      Q (h.Map pic.ColorMin pic.ColorMax pic.BlockWidth pic.BlockHeight))
    (h : pic.CalculateHistogram x y = .ok pic1) :
    pic1.frame = pic.frame ∧ (pic.HistAll Q → pic1.HistAll Q) := by
  unfold Picture.CalculateHistogram at h
  simp only [bind_ok_iff] at h
  obtain ⟨block, hblock, h0, _, h1, _, h2, _, p1, hset, hdone⟩ := h
  have hf := setBlock_frame hset
  have key := foldlM_inv (fun t : Picture => t.frame = p1.frame ∧ t.Blocks = p1.Blocks)
    (fun st sb => st.subBlockDone sb) block.Notify p1 pic1
    (fun a _ t t1 ht hbody => by
      obtain ⟨a1, a2, _⟩ := subBlockDone_spec hbody
      exact ⟨a1.trans ht.1, a2.trans ht.2⟩)
    ⟨rfl, rfl⟩ hdone
  refine ⟨key.1.trans hf.1, ?_⟩
  intro hQ
  have h1Q := setBlock_histAll (b := { block with
      Histogram := (h2.Map pic.ColorMin pic.ColorMax pic.BlockWidth pic.BlockHeight) })
    hQ (hmap h2) hset
  intro row hrow b hb
  rw [key.2] at hrow
  exact h1Q row hrow b hb

theorem runBlocks_spec {Q : Histogram → Prop} {pic pic1 : Picture}
    (hmap : ∀ h : Histogram,
      Q (h.Map pic.ColorMin pic.ColorMax pic.BlockWidth pic.BlockHeight))
    (h : pic.runBlocks = .ok pic1) :
    pic1.frame = pic.frame ∧ (pic.HistAll Q → pic1.HistAll Q) := by
  unfold Picture.runBlocks at h
  refine forRange_inv (fun t : Picture => t.frame = pic.frame ∧ (pic.HistAll Q → t.HistAll Q))
    _ _ _ _ ?_ ⟨rfl, id⟩ h
  intro x t t1 _ ht hbody
  refine forRange_inv (fun u : Picture => u.frame = pic.frame ∧ (pic.HistAll Q → u.HistAll Q))
    _ _ _ _ ?_ ht hbody
  intro y u u1 _ hu hcalc
  have gi := frame_geometry hu.1
  have ii := frame_image hu.1
  obtain ⟨a1, a2⟩ := calculateHistogram_spec (Q := Q)
    (by rw [ii.2.2.1, ii.2.2.2.1, gi.2.2.1, gi.2.2.2]; exact hmap) hcalc
  exact ⟨a1.trans hu.1, fun hQ => a2 (hu.2 hQ)⟩

theorem mapLoop_uniform (v : Int) (den : Int) (l : Histogram) (s : Int) :
    ∀ e ∈ mapLoop v v ⟨v - v, den⟩ l s, e = v := by
  induction l generalizing s with
  | nil => intro e he; cases he
  | cons a rest ih =>
    intro e he
    simp only [mapLoop, Ratio.mulTrunc, sub_self, mul_zero, Int.zero_tdiv, add_zero,
      gt_iff_lt, lt_self_iff_false, if_false, List.mem_cons] at he
    rcases he with rfl | he
    · rfl
    · exact ih (s + a) e (by simpa [sub_self] using he)

theorem map_uniform (h : Histogram) (v width height : Int) :
    ∀ e ∈ h.Map v v width height, e = v :=
  mapLoop_uniform v (width * height) h 0

/-! ### Interpolation of a uniform picture -/

theorem interpolateValue_same (width height x y t : Int) (h : width * height ≠ 0) :
    interpolateValue width height x y t t t t = t := by
  unfold interpolateValue
  have : (height - y) * ((width - x) * t + x * t) + y * ((width - x) * t + x * t)
      = t * (width * height) := by ring
  simp only [this]
  exact Int.mul_tdiv_cancel _ h

theorem pixel_mem {pic : Picture} {y x : Int} {p : Nat} (h : pic.pixel y x = .ok p) :
    ∃ row ∈ pic.Pixels, p ∈ row := by
  unfold Picture.pixel at h
  simp only [bind_ok_iff] at h
  obtain ⟨row, hrow, hp⟩ := h
  exact ⟨row, index_mem hrow, index_mem hp⟩

/-- What `gray` returns: the converted interpolation of the four histogram
entries at the bin of the pixel. -/
theorem gray_eq_ok {sb : SubBlock} {pic : Picture} {x y p g : Nat}
    (h : sb.gray pic x y p = .ok g) :
    ∃ bin blockTL blockTR blockBL blockBR tl tr bl br,
      index pic.LUT p = .ok bin ∧
      pic.block sb.TopLeft.1 sb.TopLeft.2 = .ok blockTL ∧ index blockTL.Histogram bin = .ok tl ∧
      pic.block sb.TopRight.1 sb.TopRight.2 = .ok blockTR ∧
      index blockTR.Histogram bin = .ok tr ∧
      pic.block sb.BottomLeft.1 sb.BottomLeft.2 = .ok blockBL ∧
      index blockBL.Histogram bin = .ok bl ∧
      pic.block sb.BottomRight.1 sb.BottomRight.2 = .ok blockBR ∧
      index blockBR.Histogram bin = .ok br ∧
      sb.Width * sb.Height ≠ 0 ∧
      g = (interpolateValue sb.Width sb.Height x y tl tr bl br % 256).toNat := by
  unfold SubBlock.gray at h
  simp only [bind_ok_iff] at h
  obtain ⟨bin, hbin, bTL, hTL, tl, htl, bTR, hTR, tr, htr, bBL, hBL, bl, hbl,
    bBR, hBR, br, hbr, hg⟩ := h
  split at hg
  · cases hg
  · rename_i hne
    cases hg
    exact ⟨bin, bTL, bTR, bBL, bBR, tl, tr, bl, br, hbin, hTL, htl, hTR, htr, hBL, hbl,
      hBR, hbr, hne, rfl⟩

/-- On a picture whose pixels and histogram entries all equal `v`, one step of
`Interpolate` leaves the picture as it is. -/
theorem interpolateAt_uniform {sb : SubBlock} {pic pic1 : Picture} {x y v : Nat}
    (hv : v < 256) (hpix : ∀ row ∈ pic.Pixels, ∀ p ∈ row, p = v)
    (hhist : pic.HistAll (fun hist => ∀ e ∈ hist, e = (v : Int)))
    (h : interpolateAt sb x y pic = .ok pic1) : pic1 = pic := by
  unfold interpolateAt at h
  simp only [bind_ok_iff] at h
  obtain ⟨p, hp, g, hg, hset⟩ := h
  obtain ⟨row, hrow, hprow⟩ := pixel_mem hp
  have hpv : p = v := hpix row hrow p hprow
  obtain ⟨bin, bTL, bTR, bBL, bBR, tl, tr, bl, br, _, hTL, htl, hTR, htr, hBL, hbl,
    hBR, hbr, hne, hgv⟩ := gray_eq_ok hg
  have e1 : tl = v := block_histAll hhist hTL tl (index_mem htl)
  have e2 : tr = v := block_histAll hhist hTR tr (index_mem htr)
  have e3 : bl = v := block_histAll hhist hBL bl (index_mem hbl)
  have e4 : br = v := block_histAll hhist hBR br (index_mem hbr)
  rw [e1, e2, e3, e4, interpolateValue_same _ _ _ _ _ hne] at hgv
  have hgv2 : g = v := by omega
  rw [hgv2, ← hpv] at hset
  rw [setPixel_same hp] at hset
  cases hset
  rfl

theorem interpolate_uniform {pic pic1 : Picture} {i v : Nat}
    (hv : v < 256) (hpix : ∀ row ∈ pic.Pixels, ∀ p ∈ row, p = v)
    (hhist : pic.HistAll (fun hist => ∀ e ∈ hist, e = (v : Int)))
    (h : pic.Interpolate i = .ok pic1) :
    pic1.Pixels = pic.Pixels ∧ pic1.Blocks = pic.Blocks := by
  unfold Picture.Interpolate at h
  simp only [bind_ok_iff] at h
  obtain ⟨sb, _, h⟩ := h
  split at h
  · cases h
  simp only [bind_ok_iff] at h
  obtain ⟨p1, hloops, h⟩ := h
  have hp1 : p1 = pic := by
    unfold interpolateLoops at hloops
    refine forRange_inv (fun t : Picture => t = pic) _ _ _ _ ?_ rfl hloops
    intro x t t1 _ ht hbody
    refine forRange_inv (fun u : Picture => u = pic) _ _ _ _ ?_ ht hbody
    intro y u u1 _ hu hat
    subst hu
    exact interpolateAt_uniform hv hpix hhist hat
  subst hp1
  split at h
  · cases h
  · cases h
    exact ⟨rfl, rfl⟩

/-! ### Uniform pictures -/

/-- C4: if every pixel of the picture equals the 8-bit value `v` and
`ColorMin = ColorMax = v`, then for all tile counts and every clip factor for
which `CLAHE` returns, the pixel matrix after `CLAHE` is the one before; every
pixel still equals `v`. -/
theorem uniform_image_identity (pic pic1 : Picture) (v : Nat) (blockCountX blockCountY : Int)
    (clipLimit : Ratio) (hv : v < 256) (hmin : pic.ColorMin = v) (hmax : pic.ColorMax = v)
    (hpix : ∀ row ∈ pic.Pixels, ∀ p ∈ row, p = v)
    (h : pic.CLAHE blockCountX blockCountY clipLimit = .ok pic1) :
    pic1.Pixels = pic.Pixels ∧ ∀ row ∈ pic1.Pixels, ∀ p ∈ row, p = v := by
  unfold Picture.CLAHE at h
  simp only [bind_ok_iff] at h
  obtain ⟨p1, hsetup, p2, hblocks, hsub⟩ := h
  obtain ⟨_, _, s1, s2, s3, _, _, _, _, _, _, _, _, s4, _⟩ :=
    setup_spec (R := fun _ => True) (fun _ _ _ _ _ _ _ _ _ _ _ => trivial) hsetup
  have hQ1 : p1.HistAll (fun hist => ∀ e ∈ hist, e = (v : Int)) := by
    intro row hrow b hb e he
    rw [s4 row hrow b hb] at he
    cases he
  obtain ⟨f2, q2⟩ := runBlocks_spec (Q := fun hist => ∀ e ∈ hist, e = (v : Int))
    (by rw [s2, s3, hmin, hmax]; exact fun h => map_uniform h v _ _) hblocks
  have hQ2 := q2 hQ1
  have hP2 : p2.Pixels = pic.Pixels := (frame_image f2).1.trans s1
  unfold Picture.runSubBlocks at hsub
  simp only [bind_ok_iff] at hsub
  obtain ⟨p3, hloop, hwait⟩ := hsub
  have key := forRange_inv (fun t : Picture => t.Pixels = p2.Pixels ∧ t.Blocks = p2.Blocks)
    _ _ _ _ (fun i t t1 _ ht hbody => by
      obtain ⟨a1, a2⟩ := interpolate_uniform (v := v) hv
        (by rw [ht.1, hP2]; exact hpix)
        (by intro row hrow; rw [ht.2] at hrow; exact hQ2 row hrow) hbody
      exact ⟨a1.trans ht.1, a2.trans ht.2⟩) ⟨rfl, rfl⟩ hloop
  split at hwait
  · cases hwait
  · cases hwait
    have : pic1.Pixels = pic.Pixels := key.1.trans hP2
    exact ⟨this, by rw [this]; exact hpix⟩

/-- Witness for C4: `CLAHE(1, 1, 1.0)` returns on the 2 x 2 picture of sevens, and
its pixels are the ones before. -/
theorem uniform_image_identity_witness :
    uniformExample.CLAHE 1 1 ⟨1, 1⟩ = .ok uniformExampleResult ∧
    uniformExampleResult.Pixels = uniformExample.Pixels ∧
    ∀ row ∈ uniformExampleResult.Pixels, ∀ p ∈ row, p = 7 :=
  ⟨by decide, uniform_image_identity uniformExample uniformExampleResult 7 1 1 ⟨1, 1⟩
    (by decide) (by decide) (by decide) (by decide) (by decide)⟩

/-! ### The loops of Interpolate -/

theorem gray_pixels_irrelevant (sb : SubBlock) (s t : Picture) (h : t = { s with Pixels := t.Pixels })
    (x y p : Nat) : sb.gray t x y p = sb.gray s x y p := by
  rw [h]
  rfl

theorem interpInv_congr {sb : SubBlock} {s t : Picture} {proc proc1 : Nat → Nat → Prop}
    (hiff : ∀ x y, proc x y ↔ proc1 x y) (h : InterpInv sb s proc t) :
    InterpInv sb s proc1 t := by
  have : proc = proc1 := by
    funext x y
    exact propext (hiff x y)
  rw [← this]
  exact h

theorem interpInv_init (sb : SubBlock) (s : Picture) : InterpInv sb s (fun _ _ => False) s :=
  ⟨rfl, fun _ _ h => h.elim, fun _ _ _ => rfl⟩

/-- One step of the loops keeps the invariant. -/
theorem interpInv_step {sb : SubBlock} {s t t1 : Picture} {proc : Nat → Nat → Prop} {x y : Nat}
    (hinv : InterpInv sb s proc t) (hnew : ¬ proc x y)
    (h : interpolateAt sb x y t = .ok t1) :
    InterpInv sb s (fun a b => proc a b ∨ (a = x ∧ b = y)) t1 := by
  obtain ⟨hfr, hA, hB⟩ := hinv
  unfold interpolateAt at h
  simp only [bind_ok_iff] at h
  obtain ⟨p, hp, g, hg, hset⟩ := h
  obtain ⟨hfr1, hpix1⟩ := setPixel_spec hset
  have hps : s.pixel (sb.OffsetY + y) (sb.OffsetX + x) = .ok p := by
    rw [← hB _ _ (fun a b hab hc => hnew (by
      have h1 : b = y := by omega
      have h2 : a = x := by omega
      rw [← h1, ← h2]; exact hab))]
    exact hp
  rw [gray_pixels_irrelevant sb s t hfr] at hg
  refine ⟨?_, ?_, ?_⟩
  · rw [hfr1, hfr]
  · intro a b hab
    rw [hpix1]
    rcases hab with hab | ⟨rfl, rfl⟩
    · have hne : ¬ (sb.OffsetY + (b : Int) = sb.OffsetY + y ∧
          sb.OffsetX + (a : Int) = sb.OffsetX + x) := by
        intro hc
        apply hnew
        have h1 : b = y := by omega
        have h2 : a = x := by omega
        rw [← h1, ← h2]; exact hab
      rw [if_neg hne]
      exact hA a b hab
    · rw [if_pos ⟨rfl, rfl⟩, hps]
      exact hg.symm
  · intro Y X hYX
    rw [hpix1]
    have hne : ¬ (Y = sb.OffsetY + y ∧ X = sb.OffsetX + x) := hYX x y (Or.inr ⟨rfl, rfl⟩)
    rw [if_neg hne]
    exact hB Y X (fun a b hab => hYX a b (Or.inl hab))

/-- The loops of `Interpolate`, when they return, have visited exactly the
window: every window pixel holds the `gray` of its value before, every other
pixel and every other field is unchanged. -/
theorem interpolateLoops_spec {sb : SubBlock} {s t : Picture}
    (h : interpolateLoops sb s = .ok t) :
    InterpInv sb s (fun x y => x < sb.Width.toNat ∧ y < sb.Height.toNat) t := by
  unfold interpolateLoops at h
  have outer := forRange_ind
    (fun k u => InterpInv sb s (fun x y => x < k ∧ y < sb.Height.toNat) u) _ _ _ _
    (interpInv_congr (fun x y => by simp) (interpInv_init sb s))
    (fun k u u1 _ hu hbody => by
      have inner := forRange_ind
        (fun j w => InterpInv sb s
          (fun x y => (x < k ∧ y < sb.Height.toNat) ∨ (x = k ∧ y < j)) w) _ _ _ _
        (interpInv_congr (fun x y => by simp) hu)
        (fun j w w1 hj hw hat => by
          refine interpInv_congr (fun x y => ?_) (interpInv_step hw (by omega) hat)
          omega) hbody
      exact interpInv_congr (fun x y => by omega) inner) h
  exact outer

theorem index_ok_of_lt {α : Type} {s : List α} {i : Int} (h0 : 0 ≤ i) (hlt : i.toNat < s.length) :
    ∃ a, index s i = .ok a ∧ a ∈ s := by
  refine ⟨s[i.toNat], ?_, List.getElem_mem _⟩
  rw [index_eq_ok]
  exact ⟨h0, List.getElem?_eq_getElem hlt⟩

theorem subBlockDone_subBlocks {R : SubBlock → Prop}
    (hR : ∀ (sb : SubBlock) (n : Int), R sb → R { sb with WaitGroup := n })
    {pic pic1 : Picture} {i : Nat} (hall : ∀ sb ∈ pic.SubBlocks, R sb)
    (h : pic.subBlockDone i = .ok pic1) : ∀ sb ∈ pic1.SubBlocks, R sb := by
  unfold Picture.subBlockDone at h
  simp only [bind_ok_iff] at h
  obtain ⟨sb0, hsb0, h⟩ := h
  split at h
  · cases h
  · simp only [bind_ok_iff] at h
    obtain ⟨subs, hsubs, h⟩ := h
    cases h
    obtain ⟨_, _, rfl⟩ := assign_eq_ok.mp hsubs
    intro sb hsb
    rcases List.mem_or_eq_of_mem_set hsb with h1 | h1
    · exact hall sb h1
    · rw [h1]
      exact hR sb0 _ (hall sb0 (index_mem hsb0))

theorem runBlocks_subBlocks {R : SubBlock → Prop}
    (hR : ∀ (sb : SubBlock) (n : Int), R sb → R { sb with WaitGroup := n })
    {pic pic1 : Picture} (hall : ∀ sb ∈ pic.SubBlocks, R sb)
    (h : pic.runBlocks = .ok pic1) : ∀ sb ∈ pic1.SubBlocks, R sb := by
  unfold Picture.runBlocks at h
  refine forRange_inv (fun t : Picture => ∀ sb ∈ t.SubBlocks, R sb) _ _ _ _ ?_ hall h
  intro x t t1 _ ht hbody
  refine forRange_inv (fun u : Picture => ∀ sb ∈ u.SubBlocks, R sb) _ _ _ _ ?_ ht hbody
  intro y u u1 _ hu hcalc
  unfold Picture.CalculateHistogram at hcalc
  simp only [bind_ok_iff] at hcalc
  obtain ⟨block, _, h0, _, h1, _, h2, _, p1, hset, hdone⟩ := hcalc
  have hp1 : ∀ sb ∈ p1.SubBlocks, R sb := by
    rw [(setBlock_frame hset).2.1]
    exact hu
  exact foldlM_inv (fun t : Picture => ∀ sb ∈ t.SubBlocks, R sb)
    (fun st sb => st.subBlockDone sb) block.Notify p1 u1
    (fun a _ w w1 hw hbody => subBlockDone_subBlocks hR hw hbody) hp1 hdone

theorem axisCase_extent_nonpos (count size k : Int) (h : size ≤ 0) :
    (axisCase count size k).1 ≤ 0 := by
  have h2 : Int.tdiv size 2 ≤ 0 := by
    have h3 : 0 ≤ Int.tdiv (-size) 2 := Int.tdiv_nonneg (by omega) (by decide)
    rw [Int.neg_tdiv] at h3
    omega
  unfold axisCase
  split
  · exact h2
  · split
    · exact h2
    · exact h

theorem tdiv_nonpos_of_neg {a b : Int} (ha : 0 ≤ a) (hb : b < 0) : Int.tdiv a b ≤ 0 :=
  Int.tdiv_nonpos ha hb.le

/-- C14: for 8-bit `ColorMin`, `ColorMax` and `BinCount >= 2` (`CLAHE` clamps it to
at least 128), `GenerateLUT` returns (its loop ends within the fuel) a 256-entry
table with `LUT[i] = (i - ColorMin) / binSize` for `ColorMin <= i < ColorMax`,
where `binSize = 1 + (ColorMax - ColorMin) / BinCount`, and with every other
entry zero, the entry at `ColorMax` included. -/
theorem lut_definition (pic : Picture) (hmin : pic.ColorMin < 256) (hmax : pic.ColorMax < 256)
    (hbin : 2 ≤ pic.BinCount) :
    ∃ pic1, pic.GenerateLUT = .ok pic1 ∧ pic1.LUT.length = 256 ∧
      (∀ i, pic.ColorMin ≤ i → i < pic.ColorMax →
        pic1.LUT[i]? = some ((i - pic.ColorMin) /
          (1 + (pic.ColorMax - pic.ColorMin) / pic.BinCount))) ∧
      (∀ i, i < 256 → ¬ (pic.ColorMin ≤ i ∧ i < pic.ColorMax) → pic1.LUT[i]? = some 0) ∧
      pic1.LUT[pic.ColorMax]? = some 0 := by
  have hr : (pic.ColorMax + 256 - pic.ColorMin) % 256 < 256 := Nat.mod_lt _ (by decide)
  have hq : ((pic.ColorMax + 256 - pic.ColorMin) % 256) / pic.BinCount < 128 := by
    rw [Nat.div_lt_iff_lt_mul (by omega)]
    omega
  have hbs : (1 + ((pic.ColorMax + 256 - pic.ColorMin) % 256) / pic.BinCount) % 256 ≠ 0 := by
    generalize ((pic.ColorMax + 256 - pic.ColorMin) % 256) / pic.BinCount = q at hq
    omega
  obtain ⟨lut, h1, h2, h3⟩ := lutLoop_spec pic.ColorMin pic.ColorMax _ hbs hmax 257
    pic.ColorMin (List.replicate 256 0) (by simp) (by omega)
  have hzero : ∀ i, i < 256 → ¬ (pic.ColorMin ≤ i ∧ i < pic.ColorMax) → lut[i]? = some 0 := by
    intro i hi hout
    rw [h3 i, if_neg hout, List.getElem?_replicate, if_pos hi]
  refine ⟨{ pic with LUT := lut }, ?_, h2, ?_, hzero, hzero _ hmax (by omega)⟩
  · unfold Picture.GenerateLUT
    have hb0 : pic.BinCount ≠ 0 := by omega
    simp only [if_neg hb0]
    simp only [h1]
    rfl
  · intro i hi1 hi2
    show lut[i]? = _
    rw [h3 i, if_pos ⟨hi1, hi2⟩]
    have e1 : (pic.ColorMax + 256 - pic.ColorMin) % 256 = pic.ColorMax - pic.ColorMin := by
      omega
    have e2 : (i + 256 - pic.ColorMin) % 256 = i - pic.ColorMin := by omega
    rw [e1] at hq ⊢
    rw [e2]
    have e3 : (1 + (pic.ColorMax - pic.ColorMin) / pic.BinCount) % 256
        = 1 + (pic.ColorMax - pic.ColorMin) / pic.BinCount := by
      generalize (pic.ColorMax - pic.ColorMin) / pic.BinCount = q at hq
      omega
    rw [e3]

/-- Witness for C14: `ColorMin = 10`, `ColorMax = 250`, `BinCount = 128`. -/
theorem lut_definition_witness :
    ∃ pic1, (Picture.ofPixels [] 0 0 10 250 128).GenerateLUT = .ok pic1 ∧
      pic1.LUT.length = 256 ∧
      (∀ i, (Picture.ofPixels [] 0 0 10 250 128).ColorMin ≤ i →
        i < (Picture.ofPixels [] 0 0 10 250 128).ColorMax →
        pic1.LUT[i]? = some ((i - (Picture.ofPixels [] 0 0 10 250 128).ColorMin) /
          (1 + ((Picture.ofPixels [] 0 0 10 250 128).ColorMax -
            (Picture.ofPixels [] 0 0 10 250 128).ColorMin) /
              (Picture.ofPixels [] 0 0 10 250 128).BinCount))) ∧
      (∀ i, i < 256 → ¬ ((Picture.ofPixels [] 0 0 10 250 128).ColorMin ≤ i ∧
        i < (Picture.ofPixels [] 0 0 10 250 128).ColorMax) → pic1.LUT[i]? = some 0) ∧
      pic1.LUT[(Picture.ofPixels [] 0 0 10 250 128).ColorMax]? = some 0 :=
  lut_definition (Picture.ofPixels [] 0 0 10 250 128) (by decide) (by decide) (by decide)

/-! ### Range of the interpolated value -/

theorem tdiv_between {n d lo hi : Int} (hd : 0 < d) (hlo : lo * d ≤ n) (hhi : n ≤ hi * d) :
    lo ≤ Int.tdiv n d ∧ Int.tdiv n d ≤ hi := by
  by_cases hn : 0 ≤ n
  · rw [Int.tdiv_eq_ediv hn hd.le]
    exact ⟨Int.le_ediv_of_mul_le hd hlo, Int.ediv_le_of_le_mul hd hhi⟩
  · have hneg : 0 ≤ -n := by omega
    have e : Int.tdiv n d = -((-n) / d) := by
      rw [← Int.tdiv_eq_ediv hneg hd.le, Int.neg_tdiv, neg_neg]
    rw [e]
    have h1 : (-n) / d ≤ -lo := Int.ediv_le_of_le_mul hd (by rw [Int.neg_mul]; omega)
    have h2 : -hi ≤ (-n) / d := Int.le_ediv_of_mul_le hd (by rw [Int.neg_mul]; omega)
    omega

/-- The interpolated integer is a weighted mean of the four histogram entries,
so it stays between any common bounds of theirs. -/
theorem interpolateValue_between (lo hi : Int) {width height x y tl tr bl br : Int}
    (hx0 : 0 ≤ x) (hx : x < width) (hy0 : 0 ≤ y) (hy : y < height)
    (h1 : lo ≤ tl ∧ tl ≤ hi) (h2 : lo ≤ tr ∧ tr ≤ hi) (h3 : lo ≤ bl ∧ bl ≤ hi)
    (h4 : lo ≤ br ∧ br ≤ hi) :
    lo ≤ interpolateValue width height x y tl tr bl br ∧
    interpolateValue width height x y tl tr bl br ≤ hi := by
  unfold interpolateValue
  have hw : 0 < width - x := by omega
  have hh : 0 < height - y := by omega
  have a1 : 0 ≤ (height - y) * (width - x) := Int.mul_nonneg hh.le hw.le
  have a2 : 0 ≤ (height - y) * x := Int.mul_nonneg hh.le hx0
  have a3 : 0 ≤ y * (width - x) := Int.mul_nonneg hy0 hw.le
  have a4 : 0 ≤ y * x := Int.mul_nonneg hy0 hx0
  have hd : 0 < width * height := Int.mul_pos (by omega) (by omega)
  apply tdiv_between hd
  · have b1 := Int.mul_nonneg a1 (by omega : 0 ≤ tl - lo)
    have b2 := Int.mul_nonneg a2 (by omega : 0 ≤ tr - lo)
    have b3 := Int.mul_nonneg a3 (by omega : 0 ≤ bl - lo)
    have b4 := Int.mul_nonneg a4 (by omega : 0 ≤ br - lo)
    nlinarith [b1, b2, b3, b4]
  · have b1 := Int.mul_nonneg a1 (by omega : 0 ≤ hi - tl)
    have b2 := Int.mul_nonneg a2 (by omega : 0 ≤ hi - tr)
    have b3 := Int.mul_nonneg a3 (by omega : 0 ≤ hi - bl)
    have b4 := Int.mul_nonneg a4 (by omega : 0 ≤ hi - br)
    nlinarith [b1, b2, b3, b4]

/-- C19: at a window position `0 <= x < W`, `0 <= y < H`, the integer that
`Interpolate` computes before the `uint8` conversion lies between the smallest
and the largest of the four histogram entries it reads; hence if the four
entries lie in `[lo, hi]` with `hi <= 255` (in particular in
`[ColorMin, ColorMax]`), the conversion does not wrap and the written value
lies in `[lo, hi]`. -/
theorem interpolated_value_in_range (sb : SubBlock) (pic : Picture) (x y p g : Nat)
    (hx : (x : Int) < sb.Width) (hy : (y : Int) < sb.Height)
    (hg : sb.gray pic x y p = .ok g) :
    ∃ bin blockTL blockTR blockBL blockBR tl tr bl br,
      index pic.LUT p = .ok bin ∧
      pic.block sb.TopLeft.1 sb.TopLeft.2 = .ok blockTL ∧ index blockTL.Histogram bin = .ok tl ∧
      pic.block sb.TopRight.1 sb.TopRight.2 = .ok blockTR ∧
      index blockTR.Histogram bin = .ok tr ∧
      pic.block sb.BottomLeft.1 sb.BottomLeft.2 = .ok blockBL ∧
      index blockBL.Histogram bin = .ok bl ∧
      pic.block sb.BottomRight.1 sb.BottomRight.2 = .ok blockBR ∧
      index blockBR.Histogram bin = .ok br ∧
      g = (interpolateValue sb.Width sb.Height x y tl tr bl br % 256).toNat ∧
      min (min tl tr) (min bl br) ≤ interpolateValue sb.Width sb.Height x y tl tr bl br ∧
      interpolateValue sb.Width sb.Height x y tl tr bl br ≤ max (max tl tr) (max bl br) ∧
      ∀ lo hi : Nat, hi ≤ 255 → (lo ≤ tl ∧ tl ≤ hi) → (lo ≤ tr ∧ tr ≤ hi) →
        (lo ≤ bl ∧ bl ≤ hi) → (lo ≤ br ∧ br ≤ hi) →
        interpolateValue sb.Width sb.Height x y tl tr bl br % 256 =
          interpolateValue sb.Width sb.Height x y tl tr bl br ∧ lo ≤ g ∧ g ≤ hi := by
  obtain ⟨bin, bTL, bTR, bBL, bBR, tl, tr, bl, br, hbin, hTL, htl, hTR, htr, hBL, hbl,
    hBR, hbr, _, hgv⟩ := gray_eq_ok hg
  refine ⟨bin, bTL, bTR, bBL, bBR, tl, tr, bl, br, hbin, hTL, htl, hTR, htr, hBL, hbl,
    hBR, hbr, hgv, ?_, ?_, ?_⟩
  · exact (interpolateValue_between (min (min tl tr) (min bl br))
      (max (max tl tr) (max bl br)) (by omega) hx (by omega) hy
      (by omega) (by omega) (by omega) (by omega)).1
  · exact (interpolateValue_between (min (min tl tr) (min bl br))
      (max (max tl tr) (max bl br)) (by omega) hx (by omega) hy
      (by omega) (by omega) (by omega) (by omega)).2
  · intro lo hi hhi h1 h2 h3 h4
    obtain ⟨c1, c2⟩ := interpolateValue_between (lo : Int) (hi : Int)
      (by omega) hx (by omega) hy h1 h2 h3 h4
    have hmod : interpolateValue sb.Width sb.Height x y tl tr bl br % 256 =
        interpolateValue sb.Width sb.Height x y tl tr bl br :=
      Int.emod_eq_of_lt (by omega) (by omega)
    refine ⟨hmod, ?_, ?_⟩
    · rw [hgv, hmod]; omega
    · rw [hgv, hmod]; omega

/-- Witness for C19: window position `(0, 0)` of the first sub-block of the
2 x 2 picture `[[10, 20], [30, 40]]` with one tile, pixel value 10, written
value 17. -/
theorem interpolated_value_in_range_witness :
    ∃ bin blockTL blockTR blockBL blockBR tl tr bl br,
      index singleTileReady.LUT 10 = .ok bin ∧
      singleTileReady.block singleTileSubBlock.TopLeft.1 singleTileSubBlock.TopLeft.2
        = .ok blockTL ∧ index blockTL.Histogram bin = .ok tl ∧
      singleTileReady.block singleTileSubBlock.TopRight.1 singleTileSubBlock.TopRight.2
        = .ok blockTR ∧ index blockTR.Histogram bin = .ok tr ∧
      singleTileReady.block singleTileSubBlock.BottomLeft.1 singleTileSubBlock.BottomLeft.2
        = .ok blockBL ∧ index blockBL.Histogram bin = .ok bl ∧
      singleTileReady.block singleTileSubBlock.BottomRight.1 singleTileSubBlock.BottomRight.2
        = .ok blockBR ∧ index blockBR.Histogram bin = .ok br ∧
      17 = (interpolateValue singleTileSubBlock.Width singleTileSubBlock.Height
        (0 : Nat) (0 : Nat) tl tr bl br % 256).toNat ∧
      min (min tl tr) (min bl br) ≤ interpolateValue singleTileSubBlock.Width
        singleTileSubBlock.Height (0 : Nat) (0 : Nat) tl tr bl br ∧
      interpolateValue singleTileSubBlock.Width singleTileSubBlock.Height
        (0 : Nat) (0 : Nat) tl tr bl br ≤ max (max tl tr) (max bl br) ∧
      ∀ lo hi : Nat, hi ≤ 255 → (lo ≤ tl ∧ tl ≤ hi) → (lo ≤ tr ∧ tr ≤ hi) →
        (lo ≤ bl ∧ bl ≤ hi) → (lo ≤ br ∧ br ≤ hi) →
        interpolateValue singleTileSubBlock.Width singleTileSubBlock.Height
            (0 : Nat) (0 : Nat) tl tr bl br % 256 =
          interpolateValue singleTileSubBlock.Width singleTileSubBlock.Height
            (0 : Nat) (0 : Nat) tl tr bl br ∧ lo ≤ 17 ∧ 17 ≤ hi :=
  interpolated_value_in_range singleTileSubBlock singleTileReady 0 0 10 17
    (by decide) (by decide) (by decide)

/-! ### The absolute clip limit -/

theorem clipSpread_length (limit upper incr : Int) (l : Histogram) (e : Int) :
    (clipSpread limit upper incr l e).1.length = l.length := by
  induction l generalizing e with
  | nil => rfl
  | cons v rest ih =>
    unfold clipSpread
    split
    · simp [ih]
    · split
      · simp [ih]
      · simp [ih]

theorem clipRest_length (step : Int) (l : Histogram) (e : Int) :
    (clipRest step l e).length = l.length := by
  induction l generalizing e with
  | nil => rfl
  | cons v rest ih =>
    unfold clipRest
    simp only
    split
    · rfl
    · simp [ih]

theorem clip_length {h h1 : Histogram} {limit : Int} (hc : h.Clip limit = .ok h1) :
    h1.length = h.length := by
  unfold Histogram.Clip at hc
  simp only at hc
  split at hc
  · cases hc
  · split at hc
    · cases hc
      rw [clipRest_length, clipSpread_length]
    · cases hc
      rw [clipSpread_length]

theorem generateAt_length {pic : Picture} {block : Block} {x y : Nat} {h h1 : Histogram}
    (hg : generateAt pic block x y h = .ok h1) : h1.length = h.length := by
  unfold generateAt at hg
  simp only [bind_ok_iff] at hg
  obtain ⟨p, _, bin, _, count, _, hassign⟩ := hg
  obtain ⟨_, _, rfl⟩ := assign_eq_ok.mp hassign
  simp

theorem generate_length {pic : Picture} {block : Block} {h h1 : Histogram}
    (hg : Histogram.Generate h pic block = .ok h1) : h1.length = h.length := by
  unfold Histogram.Generate at hg
  refine forRange_inv (fun t : Histogram => t.length = h.length) _ _ _ _ ?_ rfl hg
  intro x t t1 _ ht hbody
  refine forRange_inv (fun u : Histogram => u.length = h.length) _ _ _ _ ?_ ht hbody
  intro y u u1 _ hu hat
  rw [generateAt_length hat, hu]

/-- C17 (counterexample): in the 2 x 2 picture with one tile and `BinCount = 128`
the block's histogram has 256 bins after `CalculateHistogram`, not 128. -/
theorem histogram_has_256_bins_not_bincount :
    singleTileReady.BinCount = 128 ∧ singleTileReady.block 0 0 = .ok singleTileBlock ∧
    singleTileBlock.Histogram.length = 256 := by
  decide

/-- C17 (amended): the histogram that `CalculateHistogram` creates for a block
has exactly 256 bins, whatever `BinCount` is: `Generate` fills a 256-bin
histogram, `Clip` takes `binCount = len(histogram) = 256` for its per-bin
increment, and `Map` walks the same 256 entries. -/
theorem histogram_size (pic pic1 : Picture) (x y : Int)
    (h : pic.CalculateHistogram x y = .ok pic1) :
    ∃ block h1 h2 b,
      pic.block y x = .ok block ∧
      Histogram.Generate (List.replicate 256 0) pic block = .ok h1 ∧ h1.length = 256 ∧
      h1.Clip pic.ClipLimit = .ok h2 ∧ h2.length = 256 ∧
      pic1.block y x = .ok b ∧
      b.Histogram = h2.Map pic.ColorMin pic.ColorMax pic.BlockWidth pic.BlockHeight ∧
      b.Histogram.length = 256 := by
  unfold Picture.CalculateHistogram at h
  simp only [bind_ok_iff] at h
  obtain ⟨block, hblock, h0, hh0, h1, hgen, h2, hclip, p1, hset, hdone⟩ := h
  obtain ⟨_, rfl⟩ := make_eq_ok hh0
  have l1 : h1.length = 256 := by rw [generate_length hgen]; simp
  have l2 : h2.length = 256 := by rw [clip_length hclip, l1]
  have hb1 := (setBlock_spec hset).2.2 y x
  rw [if_pos ⟨rfl, rfl⟩] at hb1
  have hblocks : pic1.Blocks = p1.Blocks :=
    foldlM_inv (fun t : Picture => t.Blocks = p1.Blocks)
      (fun st sb => st.subBlockDone sb) block.Notify p1 pic1
      (fun a _ t t1 ht hbody => (subBlockDone_spec hbody).2.1.trans ht) rfl hdone
  refine ⟨block, h1, h2, { block with
      Histogram := (h2.Map pic.ColorMin pic.ColorMax pic.BlockWidth pic.BlockHeight) },
    hblock, hgen, l1, hclip, l2, ?_, rfl, ?_⟩
  · unfold Picture.block
    rw [hblocks]
    exact hb1
  · show (h2.Map _ _ _ _).length = 256
    unfold Histogram.Map
    rw [mapLoop_length, l2]

/-- Witness for C17 (amended): `CalculateHistogram(0, 0)` on the 2 x 2 picture
`[[10, 20], [30, 40]]` after `setup(1, 1, 1.0)`. -/
theorem histogram_size_witness :
    singleTileSetup.CalculateHistogram 0 0 = .ok singleTileReady ∧
    ∃ block h1 h2 b,
      singleTileSetup.block 0 0 = .ok block ∧
      Histogram.Generate (List.replicate 256 0) singleTileSetup block = .ok h1 ∧
      h1.length = 256 ∧
      h1.Clip singleTileSetup.ClipLimit = .ok h2 ∧ h2.length = 256 ∧
      singleTileReady.block 0 0 = .ok b ∧
      b.Histogram = h2.Map singleTileSetup.ColorMin singleTileSetup.ColorMax
        singleTileSetup.BlockWidth singleTileSetup.BlockHeight ∧
      b.Histogram.length = 256 :=
  ⟨by decide, histogram_size singleTileSetup singleTileReady 0 0 (by decide)⟩

/-! ### Read -/

/-- C18 (failing input): on the 2 x 2 image with rows `[200, 50]` and `[60, 70]`
`Read` leaves `ColorMin = 50` and `ColorMax = 70`, although the pixel at
`(0, 0)` is 200: the first pixel only lowers `ColorMin`, the `switch` never
compares it with `ColorMax`. On the 1 x 1 image `[100]` it leaves
`ColorMin = 100` and `ColorMax = 0`. -/
theorem read_misses_maximum :
    (Picture.Read 2 2 (grayOf [[200, 50], [60, 70]])).map
      (fun p => (p.ColorMin, p.ColorMax, p.Pixels)) = .ok (50, 70, [[200, 50], [60, 70]]) ∧
    (Picture.Read 1 1 (grayOf [[100]])).map
      (fun p => (p.ColorMin, p.ColorMax, p.Pixels)) = .ok (100, 0, [[100]]) := by
  decide

/-! ### The interpolation formula -/

theorem interpolateInOrder_inv (sb : SubBlock) (s : Picture) :
    ∀ (order : List (Nat × Nat)) (proc : Nat → Nat → Prop) (t t1 : Picture),
      InterpInv sb s proc t → (∀ pos ∈ order, ¬ proc pos.1 pos.2) → order.Nodup →
      interpolateInOrder sb order t = .ok t1 →
      InterpInv sb s (fun x y => proc x y ∨ (x, y) ∈ order) t1 := by
  intro order
  induction order with
  | nil =>
    intro proc t t1 hinv _ _ h
    unfold interpolateInOrder at h
    simp only [List.foldlM_nil] at h
    cases h
    exact interpInv_congr (fun x y => by simp) hinv
  | cons pos rest ih =>
    intro proc t t1 hinv hnew hnd h
    unfold interpolateInOrder at h
    rw [List.foldlM_cons] at h
    simp only [bind_ok_iff] at h
    obtain ⟨u, hu, hrest⟩ := h
    have hstep := interpInv_step hinv (hnew pos (List.mem_cons_self _ _)) hu
    have hnd2 := List.nodup_cons.mp hnd
    have := ih (fun a b => proc a b ∨ (a = pos.1 ∧ b = pos.2)) u t1 hstep
      (fun q hq hc => by
        rcases hc with hc | ⟨h1, h2⟩
        · exact hnew q (List.mem_cons_of_mem _ hq) hc
        · apply hnd2.1
          have : q = pos := Prod.ext h1 h2
          rw [← this]; exact hq)
      hnd2.2 hrest
    refine interpInv_congr (fun x y => ?_) this
    simp only [List.mem_cons, Prod.ext_iff]
    tauto

theorem interpInv_unique {sb : SubBlock} {s t1 t2 : Picture} {proc : Nat → Nat → Prop}
    (h1 : InterpInv sb s proc t1) (h2 : InterpInv sb s proc t2) (Y X : Int) :
    t1.pixel Y X = t2.pixel Y X := by
  by_cases hin : ∃ x y, proc x y ∧ Y = sb.OffsetY + (y : Int) ∧ X = sb.OffsetX + (x : Int)
  · obtain ⟨x, y, hp, rfl, rfl⟩ := hin
    rw [h1.2.1 x y hp, h2.2.1 x y hp]
  · have hout : ∀ x y, proc x y → ¬ (Y = sb.OffsetY + (y : Int) ∧ X = sb.OffsetX + (x : Int)) :=
      fun x y hp hc => hin ⟨x, y, hp, hc⟩
    rw [h1.2.2 Y X hout, h2.2.2 Y X hout]

theorem interpolateAt_written {sb : SubBlock} {t t1 : Picture} {x y : Nat}
    (h : interpolateAt sb x y t = .ok t1) :
    (∃ g, t1.pixel (sb.OffsetY + y) (sb.OffsetX + x) = .ok g) ∧
    ∀ Y X g, t.pixel Y X = .ok g → ∃ g1, t1.pixel Y X = .ok g1 := by
  unfold interpolateAt at h
  simp only [bind_ok_iff] at h
  obtain ⟨p, _, g, _, hset⟩ := h
  have hpix := (setPixel_spec hset).2
  constructor
  · exact ⟨g, by rw [hpix, if_pos ⟨rfl, rfl⟩]⟩
  · intro Y X g0 hg0
    rw [hpix]
    split
    · exact ⟨g, rfl⟩
    · exact ⟨g0, hg0⟩

/-- After the loops of `Interpolate` every window pixel can be read. -/
theorem interpolateLoops_written {sb : SubBlock} {s t : Picture}
    (h : interpolateLoops sb s = .ok t) :
    ∀ x y, x < sb.Width.toNat → y < sb.Height.toNat →
      ∃ g, t.pixel (sb.OffsetY + y) (sb.OffsetX + x) = .ok g := by
  unfold interpolateLoops at h
  have outer := forRange_ind
    (fun k (u : Picture) => ∀ x y, x < k → y < sb.Height.toNat →
      ∃ g, u.pixel (sb.OffsetY + y) (sb.OffsetX + x) = .ok g) _ _ _ _
    (fun x y hx _ => by omega)
    (fun k u u1 _ hu hbody => by
      have inner := forRange_ind
        (fun j (w : Picture) => ∀ x y, (x < k ∧ y < sb.Height.toNat) ∨ (x = k ∧ y < j) →
          ∃ g, w.pixel (sb.OffsetY + y) (sb.OffsetX + x) = .ok g) _ _ _ _
        (fun x y hxy => by
          rcases hxy with hxy | hxy
          · exact hu x y hxy.1 hxy.2
          · omega)
        (fun j w w1 hj hw hat => by
          obtain ⟨a1, a2⟩ := interpolateAt_written hat
          intro x y hxy
          by_cases hnew : x = k ∧ y = j
          · rw [hnew.1, hnew.2]; exact a1
          · obtain ⟨g, hg⟩ := hw x y (by omega)
            exact a2 _ _ g hg) hbody
      intro x y hx hy
      exact inner x y (by omega)) h
  intro x y hx hy
  exact outer x y hx hy

/-- C13: when `Interpolate` returns, every pixel `(x, y)` of the window, with
value `p` before and `bin = LUT[p]`, holds the `uint8` value of
`((H-y)*((W-x)*TL + x*TR) + y*((W-x)*BL + x*BR)) / (W*H)` under truncating
division, where `TL`, `TR`, `BL`, `BR` are the four blocks' histogram entries at
`bin`; and visiting the window positions in any other order leaves the same
value at every pixel of the picture. -/
theorem interpolation_formula (pic pic1 : Picture) (i : Nat) (sb : SubBlock)
    (hsb : index pic.SubBlocks i = .ok sb) (h : pic.Interpolate i = .ok pic1) :
    (∀ x y : Nat, (x : Int) < sb.Width → (y : Int) < sb.Height →
      ∃ p bin blockTL blockTR blockBL blockBR tl tr bl br,
        pic.pixel (sb.OffsetY + y) (sb.OffsetX + x) = .ok p ∧
        index pic.LUT p = .ok bin ∧
        pic.block sb.TopLeft.1 sb.TopLeft.2 = .ok blockTL ∧
        index blockTL.Histogram bin = .ok tl ∧
        pic.block sb.TopRight.1 sb.TopRight.2 = .ok blockTR ∧
        index blockTR.Histogram bin = .ok tr ∧
        pic.block sb.BottomLeft.1 sb.BottomLeft.2 = .ok blockBL ∧
        index blockBL.Histogram bin = .ok bl ∧
        pic.block sb.BottomRight.1 sb.BottomRight.2 = .ok blockBR ∧
        index blockBR.Histogram bin = .ok br ∧
        pic1.pixel (sb.OffsetY + y) (sb.OffsetX + x) = .ok
          (Int.tdiv
            ((sb.Height - y) * ((sb.Width - x) * tl + x * tr) +
              y * ((sb.Width - x) * bl + x * br))
            (sb.Width * sb.Height) % 256).toNat) ∧
    (∀ (order : List (Nat × Nat)) (pic2 : Picture), order.Nodup →
      (∀ x y : Nat, (x, y) ∈ order ↔ (x : Int) < sb.Width ∧ (y : Int) < sb.Height) →
      interpolateInOrder sb order pic = .ok pic2 →
      ∀ Y X, pic2.pixel Y X = pic1.pixel Y X) := by
  unfold Picture.Interpolate at h
  simp only [bind_ok_iff] at h
  obtain ⟨sb1, hsb1, h⟩ := h
  rw [hsb] at hsb1
  cases hsb1
  split at h
  · cases h
  simp only [bind_ok_iff] at h
  obtain ⟨t1, hloops, h⟩ := h
  have hpix1 : ∀ Y X, pic1.pixel Y X = t1.pixel Y X := by
    intro Y X
    split at h
    · cases h
    · cases h
      rfl
  have hinv := interpolateLoops_spec hloops
  constructor
  · intro x y hx hy
    have hA := hinv.2.1 x y ⟨by omega, by omega⟩
    obtain ⟨g, hg⟩ := interpolateLoops_written hloops x y (by omega) (by omega)
    rw [hg] at hA
    have hA2 := hA.symm
    simp only [bind_ok_iff] at hA2
    obtain ⟨p, hp, hgray⟩ := hA2
    obtain ⟨bin, bTL, bTR, bBL, bBR, tl, tr, bl, br, hbin, hTL, htl, hTR, htr, hBL, hbl,
      hBR, hbr, _, hgv⟩ := gray_eq_ok hgray
    refine ⟨p, bin, bTL, bTR, bBL, bBR, tl, tr, bl, br, hp, hbin, hTL, htl, hTR, htr,
      hBL, hbl, hBR, hbr, ?_⟩
    rw [hpix1, hg, hgv]
    rfl
  · intro order pic2 hnd hmem hrun Y X
    have h2 := interpolateInOrder_inv sb pic order (fun _ _ => False) pic pic2
      (interpInv_init sb pic) (fun _ _ hc => hc) hnd hrun
    have h2' : InterpInv sb pic (fun x y => x < sb.Width.toNat ∧ y < sb.Height.toNat) pic2 := by
      refine interpInv_congr (fun x y => ?_) h2
      rw [false_or, hmem x y]
      omega
    rw [hpix1]
    exact interpInv_unique h2' hinv Y X

/-- Witness for C13: the first sub-block of the 2 x 2 picture
`[[10, 20], [30, 40]]` with one tile. -/
theorem interpolation_formula_witness :
    singleTileReady.Interpolate 0 = .ok singleTileFirstDone ∧
    (∀ x y : Nat, (x : Int) < singleTileSubBlock.Width → (y : Int) < singleTileSubBlock.Height →
      ∃ p bin blockTL blockTR blockBL blockBR tl tr bl br,
        singleTileReady.pixel (singleTileSubBlock.OffsetY + y) (singleTileSubBlock.OffsetX + x)
          = .ok p ∧
        index singleTileReady.LUT p = .ok bin ∧
        singleTileReady.block singleTileSubBlock.TopLeft.1 singleTileSubBlock.TopLeft.2
          = .ok blockTL ∧
        index blockTL.Histogram bin = .ok tl ∧
        singleTileReady.block singleTileSubBlock.TopRight.1 singleTileSubBlock.TopRight.2
          = .ok blockTR ∧
        index blockTR.Histogram bin = .ok tr ∧
        singleTileReady.block singleTileSubBlock.BottomLeft.1 singleTileSubBlock.BottomLeft.2
          = .ok blockBL ∧
        index blockBL.Histogram bin = .ok bl ∧
        singleTileReady.block singleTileSubBlock.BottomRight.1 singleTileSubBlock.BottomRight.2
          = .ok blockBR ∧
        index blockBR.Histogram bin = .ok br ∧
        singleTileFirstDone.pixel (singleTileSubBlock.OffsetY + y)
            (singleTileSubBlock.OffsetX + x) = .ok
          (Int.tdiv
            ((singleTileSubBlock.Height - y) * ((singleTileSubBlock.Width - x) * tl + x * tr) +
              y * ((singleTileSubBlock.Width - x) * bl + x * br))
            (singleTileSubBlock.Width * singleTileSubBlock.Height) % 256).toNat) ∧
    (∀ (order : List (Nat × Nat)) (pic2 : Picture), order.Nodup →
      (∀ x y : Nat, (x, y) ∈ order ↔
        (x : Int) < singleTileSubBlock.Width ∧ (y : Int) < singleTileSubBlock.Height) →
      interpolateInOrder singleTileSubBlock order singleTileReady = .ok pic2 →
      ∀ Y X, pic2.pixel Y X = singleTileFirstDone.pixel Y X) :=
  ⟨by decide,
    interpolation_formula singleTileReady singleTileFirstDone 0 singleTileSubBlock
      (by decide) (by decide)⟩

/-! ### The sub-block grid -/

/-- `PrepareInterpolation` appends exactly the sub-blocks of the grid, row by
row, with the running offsets. -/
theorem prepareInterpolation_exact {pic pic1 : Picture}
    (h : pic.PrepareInterpolation = .ok pic1) :
    pic1.frame = pic.frame ∧ pic1.SubBlocks = pic.SubBlocks ++ gridSubBlocks pic := by
  unfold Picture.PrepareInterpolation at h
  simp only [bind_ok_iff] at h
  obtain ⟨r, hr, hpic⟩ := h
  cases hpic
  have outer := forRange_ind
    (fun ky (t : Picture × Int) => t.1.frame = pic.frame ∧
      t.2 = axisOffset pic.BlockCountY pic.BlockHeight ky ∧
      t.1.SubBlocks = pic.SubBlocks ++ (List.range ky).flatMap (fun k => gridSubRow pic k))
    _ _ _ _ ⟨rfl, rfl, by simp⟩
    (fun ky t t1 _ ht hbody => by
      unfold Picture.prepareSubRow at hbody
      simp only [bind_ok_iff] at hbody
      obtain ⟨r1, hr1, ht1⟩ := hbody
      cases ht1
      obtain ⟨g1, g2, g3, g4⟩ := frame_geometry ht.1
      have inner := forRange_ind
        (fun kx (u : Picture × Int) => u.1.frame = pic.frame ∧
          u.2 = axisOffset pic.BlockCountX pic.BlockWidth kx ∧
          u.1.SubBlocks = pic.SubBlocks ++
            (List.range ky).flatMap (fun k => gridSubRow pic k) ++
            (List.range kx).map (fun k =>
              subBlockAt pic k ky (axisOffset pic.BlockCountX pic.BlockWidth k)
                (axisOffset pic.BlockCountY pic.BlockHeight ky)))
        _ _ (t.1, 0) r1 ⟨ht.1, rfl, by simp [ht.2.2]⟩
        (fun kx u u1 _ hu hsub => by
          obtain ⟨upic, uoff⟩ := u
          obtain ⟨u1pic, u1off⟩ := u1
          obtain ⟨k1, k2, k3, _, _⟩ := prepareSubBlock_spec (Q := fun _ => True) hsub
          obtain ⟨f1, f2, f3, f4⟩ := frame_geometry hu.1
          have f1a : upic.BlockCountX = pic.BlockCountX := f1
          have f3a : upic.BlockWidth = pic.BlockWidth := f3
          have huoff : uoff = axisOffset pic.BlockCountX pic.BlockWidth kx := hu.2.1
          refine ⟨k1.trans hu.1, ?_, ?_⟩
          · show u1off = _
            rw [k3, f1a, f3a, huoff]
            rfl
          · show u1pic.SubBlocks = _
            rw [k2, hu.2.2, List.range_succ, List.map_append, List.map_singleton,
              ← List.append_assoc]
            congr 1
            simp only [subBlockAt, f1a, f3a, g2, g4, huoff, ht.2.1])
        hr1
      refine ⟨inner.1, ?_, ?_⟩
      · show t.2 + _ = _
        rw [ht.2.1, g2, g4]
        rfl
      · show r1.1.SubBlocks = _
        rw [inner.2.2, List.range_succ, List.flatMap_append, ← List.append_assoc]
        congr 1
        simp only [List.flatMap_cons, List.flatMap_nil, List.append_nil, gridSubRow, g1])
    hr
  exact ⟨outer.1, outer.2.2⟩

theorem tdiv_two_bounds {size : Int} (h : 0 ≤ size) :
    0 ≤ Int.tdiv size 2 ∧ 2 * Int.tdiv size 2 ≤ size := by
  rw [Int.tdiv_eq_ediv h (by decide)]
  omega

theorem axisCase_zero (count size : Int) :
    axisCase count size 0 = (Int.tdiv size 2, 0, 0) := by
  simp [axisCase]

theorem axisCase_inner {count size k : Int} (h0 : k ≠ 0) (hk : k ≠ count) :
    axisCase count size k = (size, k - 1, k) := by
  simp [axisCase, h0, hk]

theorem axisCase_last {count size : Int} (h0 : count ≠ 0) :
    axisCase count size count = (Int.tdiv size 2, count - 1, count - 1) := by
  simp [axisCase, h0]

/-- The running offset before position `k >= 1`: one half block and `k - 1`
whole blocks. -/
theorem axisOffset_eq (count size : Int) :
    ∀ k : Nat, 1 ≤ k → (k : Int) ≤ count →
      axisOffset count size k = Int.tdiv size 2 + ((k : Int) - 1) * size := by
  intro k
  induction k with
  | zero => intro h; omega
  | succ k ih =>
    intro _ hk
    unfold axisOffset
    by_cases hk0 : k = 0
    · subst hk0
      simp [axisOffset, axisCase_zero]
    · rw [ih (by omega) (by omega), axisCase_inner (by omega) (by omega)]
      push_cast
      ring

/-- Along one axis with `count >= 1` blocks of size `size >= 0`, the sub-block at
position `k <= count` has block indices `first <= second <= first + 1` below
`count`, and its extent lies inside the blocks `first .. second`. -/
theorem axis_window (count size : Int) (k : Nat) (hcount : 1 ≤ count) (hsize : 0 ≤ size)
    (hk : (k : Int) ≤ count) :
    0 ≤ (axisCase count size k).2.1 ∧
    (axisCase count size k).2.1 ≤ (axisCase count size k).2.2 ∧
    (axisCase count size k).2.2 ≤ (axisCase count size k).2.1 + 1 ∧
    (axisCase count size k).2.2 < count ∧
    0 ≤ (axisCase count size k).1 ∧
    (axisCase count size k).2.1 * size ≤ axisOffset count size k ∧
    axisOffset count size k + (axisCase count size k).1
      ≤ ((axisCase count size k).2.2 + 1) * size := by
  obtain ⟨t0, t1⟩ := tdiv_two_bounds hsize
  by_cases hk0 : k = 0
  · subst hk0
    have hc : axisCase count size ((0 : Nat) : Int) = (Int.tdiv size 2, 0, 0) := by
      simpa using axisCase_zero count size
    simp only [hc, axisOffset]
    refine ⟨le_rfl, le_rfl, by omega, by omega, t0, by omega, ?_⟩
    omega
  · have hoff := axisOffset_eq count size k (by omega) hk
    by_cases hkc : (k : Int) = count
    · have hc : axisCase count size (k : Int) = (Int.tdiv size 2, count - 1, count - 1) := by
        rw [hkc]; exact axisCase_last (by omega)
      rw [hkc] at hoff
      simp only [hc, hoff]
      have e : (count - 1 + 1) * size = (count - 1) * size + size := by ring
      rw [e]
      refine ⟨by omega, le_rfl, by omega, by omega, t0, by omega, by omega⟩
    · have hc : axisCase count size (k : Int) = (size, (k : Int) - 1, (k : Int)) :=
        axisCase_inner (by omega) hkc
      simp only [hc, hoff]
      have e : ((k : Int) + 1) * size = ((k : Int) - 1) * size + size + size := by ring
      rw [e]
      refine ⟨by omega, by omega, by omega, by omega, hsize, by omega, by omega⟩

theorem gridSubBlocks_congr {a b : Picture} (h : a.frame = b.frame) :
    gridSubBlocks a = gridSubBlocks b := by
  obtain ⟨h1, h2, h3, h4⟩ := frame_geometry h
  simp only [gridSubBlocks, gridSubRow, subBlockAt, h1, h2, h3, h4]

/-- After the set-up the sub-blocks are exactly those of the grid. -/
theorem setup_subBlocks {pic pic1 : Picture} {bx by1 : Int} {clip : Ratio}
    (h : pic.setup bx by1 clip = .ok pic1) : pic1.SubBlocks = gridSubBlocks pic1 := by
  unfold Picture.setup at h
  simp only at h
  split at h
  · cases h
  split at h
  · cases h
  simp only [bind_ok_iff] at h
  obtain ⟨p5, _, p6, _, h7⟩ := h
  obtain ⟨f7, s7⟩ := prepareInterpolation_exact h7
  rw [s7, gridSubBlocks_congr f7]
  rfl

theorem mem_gridSubBlocks {pic : Picture} {sb : SubBlock} (h : sb ∈ gridSubBlocks pic) :
    ∃ kx ky : Nat, (kx : Int) ≤ pic.BlockCountX ∧ (ky : Int) ≤ pic.BlockCountY ∧
      sb = subBlockAt pic kx ky (axisOffset pic.BlockCountX pic.BlockWidth kx)
        (axisOffset pic.BlockCountY pic.BlockHeight ky) := by
  unfold gridSubBlocks gridSubRow at h
  rw [List.mem_flatMap] at h
  obtain ⟨ky, hky, h⟩ := h
  rw [List.mem_map] at h
  obtain ⟨kx, hkx, h⟩ := h
  rw [List.mem_range] at hky hkx
  exact ⟨kx, ky, by omega, by omega, h.symm⟩

theorem pixel_congr {a b : Picture} (h : a.Pixels = b.Pixels) (Y X : Int) :
    a.pixel Y X = b.pixel Y X := by
  unfold Picture.pixel
  rw [h]

/-- Every sub-block of the grid is empty along one axis or has its window inside
`[0, BlockCountX*BlockWidth) x [0, BlockCountY*BlockHeight)`. -/
theorem gridSubBlocks_inside {pic : Picture} (hx0 : pic.BlockCountX ≠ 0)
    (hy0 : pic.BlockCountY ≠ 0)
    (hbw : 0 < pic.BlockCountX → 0 ≤ pic.BlockWidth) (hbw2 : pic.BlockCountX < 0 → pic.BlockWidth ≤ 0)
    (hbh : 0 < pic.BlockCountY → 0 ≤ pic.BlockHeight)
    (hbh2 : pic.BlockCountY < 0 → pic.BlockHeight ≤ 0) :
    ∀ sb ∈ gridSubBlocks pic, (sb.Width ≤ 0 ∨ sb.Height ≤ 0) ∨
      (sb.OffsetX + sb.Width ≤ pic.BlockCountX * pic.BlockWidth ∧
        sb.OffsetY + sb.Height ≤ pic.BlockCountY * pic.BlockHeight) := by
  intro sb hsb
  obtain ⟨kx, ky, hkx, hky, rfl⟩ := mem_gridSubBlocks hsb
  simp only [subBlockAt]
  by_cases hxneg : pic.BlockCountX < 0
  · exact Or.inl (Or.inl (axisCase_extent_nonpos _ _ _ (hbw2 hxneg)))
  by_cases hyneg : pic.BlockCountY < 0
  · exact Or.inl (Or.inr (axisCase_extent_nonpos _ _ _ (hbh2 hyneg)))
  right
  obtain ⟨_, _, _, x4, _, _, x7⟩ :=
    axis_window pic.BlockCountX pic.BlockWidth kx (by omega) (hbw (by omega)) hkx
  obtain ⟨_, _, _, y4, _, _, y7⟩ :=
    axis_window pic.BlockCountY pic.BlockHeight ky (by omega) (hbh (by omega)) hky
  constructor
  · have : ((axisCase pic.BlockCountX pic.BlockWidth kx).2.2 + 1) * pic.BlockWidth
        ≤ pic.BlockCountX * pic.BlockWidth :=
      Int.mul_le_mul_of_nonneg_right (by omega) (hbw (by omega))
    omega
  · have : ((axisCase pic.BlockCountY pic.BlockHeight ky).2.2 + 1) * pic.BlockHeight
        ≤ pic.BlockCountY * pic.BlockHeight :=
      Int.mul_le_mul_of_nonneg_right (by omega) (hbh (by omega))
    omega

/-- C11: for a picture of non-negative size and any tile counts and clip factor
for which `CLAHE` returns, every pixel `(x, y)` with
`x >= tileCountX*BlockWidth` or `y >= tileCountY*BlockHeight` reads the same
after `CLAHE` as before (`BlockWidth = Width / tileCountX`,
`BlockHeight = Height / tileCountY`). -/
theorem remainder_untouched (pic pic1 : Picture) (blockCountX blockCountY : Int)
    (clipLimit : Ratio) (hW : 0 ≤ pic.Width) (hH : 0 ≤ pic.Height)
    (h : pic.CLAHE blockCountX blockCountY clipLimit = .ok pic1) :
    ∀ X Y : Int,
      (blockCountX * Int.tdiv pic.Width blockCountX ≤ X ∨
        blockCountY * Int.tdiv pic.Height blockCountY ≤ Y) →
      pic1.pixel Y X = pic.pixel Y X := by
  unfold Picture.CLAHE at h
  simp only [bind_ok_iff] at h
  obtain ⟨p1, hsetup, p2, hblocks, hsub⟩ := h
  obtain ⟨hx0, hy0, s1, _, _, _, _, sBX, sBY, sBW, sBH, _, _, _, _⟩ :=
    setup_spec (R := fun _ => True) (fun _ _ _ _ _ _ _ _ _ _ _ => trivial) hsetup
  have hin := @gridSubBlocks_inside p1 (by rw [sBX]; exact hx0) (by rw [sBY]; exact hy0)
    (by rw [sBX, sBW]; intro hpos; exact Int.tdiv_nonneg hW hpos.le)
    (by rw [sBX, sBW]; intro hneg; exact tdiv_nonpos_of_neg hW hneg)
    (by rw [sBY, sBH]; intro hpos; exact Int.tdiv_nonneg hH hpos.le)
    (by rw [sBY, sBH]; intro hneg; exact tdiv_nonpos_of_neg hH hneg)
  rw [← setup_subBlocks hsetup, sBX, sBY, sBW, sBH] at hin
  have hin2 := runBlocks_subBlocks
    (R := fun sb => (sb.Width ≤ 0 ∨ sb.Height ≤ 0) ∨
      (sb.OffsetX + sb.Width ≤ blockCountX * Int.tdiv pic.Width blockCountX ∧
        sb.OffsetY + sb.Height ≤ blockCountY * Int.tdiv pic.Height blockCountY))
    (fun sb n hsb => hsb) hin hblocks
  obtain ⟨f2, _⟩ := runBlocks_spec (Q := fun _ => True) (fun _ => trivial) hblocks
  have hP2 : p2.Pixels = pic.Pixels := (frame_image f2).1.trans s1
  unfold Picture.runSubBlocks at hsub
  simp only [bind_ok_iff] at hsub
  obtain ⟨p3, hloop, hwait⟩ := hsub
  intro X Y hout
  have key := forRange_inv
    (fun t : Picture => t.SubBlocks = p2.SubBlocks ∧ t.pixel Y X = p2.pixel Y X)
    _ _ _ _ (fun i t t1 _ ht hbody => by
      unfold Picture.Interpolate at hbody
      simp only [bind_ok_iff] at hbody
      obtain ⟨sb, hsb, hbody⟩ := hbody
      split at hbody
      · cases hbody
      simp only [bind_ok_iff] at hbody
      obtain ⟨u, hloops, hbody⟩ := hbody
      obtain ⟨hfr, _, hB⟩ := interpolateLoops_spec hloops
      have hR := hin2 sb (by rw [← ht.1]; exact index_mem hsb)
      have hu : u.pixel Y X = t.pixel Y X := by
        apply hB
        intro x y hxy hc
        rcases hR with hR | hR
        · omega
        · omega
      split at hbody
      · cases hbody
      · cases hbody
        refine ⟨?_, ?_⟩
        · show u.SubBlocks = _
          rw [hfr]; exact ht.1
        · show u.pixel Y X = _
          rw [hu]; exact ht.2) ⟨rfl, rfl⟩ hloop
  split at hwait
  · cases hwait
  · cases hwait
    rw [key.2]
    exact pixel_congr hP2 Y X

/-- Witness for C11: the 5 x 5 picture with 2 x 2 tiles; the last row and column
read the same after `CLAHE`. -/
theorem remainder_untouched_witness :
    remainderExample.CLAHE 2 2 ⟨1, 1⟩ = .ok remainderResult ∧
    ∀ X Y : Int,
      ((2 : Int) * Int.tdiv remainderExample.Width 2 ≤ X ∨
        (2 : Int) * Int.tdiv remainderExample.Height 2 ≤ Y) →
      remainderResult.pixel Y X = remainderExample.pixel Y X :=
  ⟨by decide, remainder_untouched remainderExample remainderResult 2 2 ⟨1, 1⟩ (by decide)
    (by decide) (by decide)⟩

/-! ### Generate -/

theorem sum_set_succ (l : List Int) (i : Nat) (c : Int) (h : l[i]? = some c) :
    (l.set i (c + 1)).sum = l.sum + 1 := by
  induction l generalizing i with
  | nil => simp at h
  | cons a rest ih =>
    cases i with
    | zero =>
      simp only [List.getElem?_cons_zero, Option.some.injEq] at h
      subst h
      simp only [List.set_cons_zero, List.sum_cons]
      omega
    | succ j =>
      simp only [List.getElem?_cons_succ] at h
      simp only [List.set_cons_succ, List.sum_cons, ih j h]
      omega

theorem columnCount_succ (pic : Picture) (block : Block) (b x n : Nat) :
    columnCount pic block b x (n + 1) =
      columnCount pic block b x n + (if tileBin pic block x n = .ok b then 1 else 0) := by
  unfold columnCount
  rw [List.range_succ, List.filter_append, List.length_append]
  congr 1
  by_cases h : tileBin pic block x n = .ok b
  · simp [h]
  · simp [h]

theorem columnsCount_succ (pic : Picture) (block : Block) (b k : Nat) :
    columnsCount pic block b (k + 1) =
      columnsCount pic block b k + columnCount pic block b k pic.BlockHeight.toNat := by
  unfold columnsCount
  rw [List.range_succ, List.map_append, List.sum_append]
  simp

/-- One step of `Generate` at a position whose bin is `bin`: that bin grows by
one, the others stay. -/
theorem generateAt_spec {pic : Picture} {block : Block} {x y bin : Nat} {h : Histogram}
    {c : Int} (hbin : tileBin pic block x y = .ok bin) (hc : h[bin]? = some c) :
    generateAt pic block x y h = .ok (h.set bin (c + 1)) := by
  unfold tileBin at hbin
  simp only [bind_ok_iff] at hbin
  obtain ⟨p, hp, hlut⟩ := hbin
  unfold generateAt
  simp only [bind_ok_iff]
  refine ⟨p, hp, bin, hlut, c, ?_, ?_⟩
  · rw [index_eq_ok]
    exact ⟨by omega, by simpa using hc⟩
  · rw [assign_eq_ok]
    have := (List.getElem?_eq_some_iff.mp hc).1
    exact ⟨by omega, by simpa using this, by simp⟩

/-- C12: when every pixel of the block's `BlockWidth x BlockHeight` view can be
read and mapped to a bin below 256, `Generate` on the all-zero 256-bin histogram
returns a histogram in which each bin `b` holds the number of pixels `p` of the
view with `LUT[p] = b`, and whose bins sum to `BlockWidth*BlockHeight`. -/
theorem generate_counts (pic : Picture) (block : Block)
    (hbw : 0 ≤ pic.BlockWidth) (hbh : 0 ≤ pic.BlockHeight)
    (hread : ∀ x < pic.BlockWidth.toNat, ∀ y < pic.BlockHeight.toNat,
      ∃ b < 256, tileBin pic block x y = .ok b) :
    ∃ h1, Histogram.Generate (List.replicate 256 0) pic block = .ok h1 ∧ h1.length = 256 ∧
      (∀ b < 256, h1[b]? = some ((tileCount pic block b : Nat) : Int)) ∧
      h1.sum = pic.BlockWidth * pic.BlockHeight := by
  unfold Histogram.Generate
  obtain ⟨h1, hrun, hlen, hcnt, hsum⟩ := forRange_total
    (fun k (h : Histogram) => h.length = 256 ∧
      (∀ b < 256, h[b]? = some ((columnsCount pic block b k : Nat) : Int)) ∧
      h.sum = ((k * pic.BlockHeight.toNat : Nat) : Int))
    pic.BlockWidth _ (List.replicate 256 0)
    ⟨by simp, fun b hb => by
        rw [List.getElem?_replicate, if_pos hb]
        simp [columnsCount], by simp⟩
    (fun k h hk hinv => by
      obtain ⟨t, ht, hI⟩ := forRange_total
        (fun j (u : Histogram) => u.length = 256 ∧
          (∀ b < 256, u[b]? = some (((columnsCount pic block b k +
            columnCount pic block b k j : Nat)) : Int)) ∧
          u.sum = ((k * pic.BlockHeight.toNat + j : Nat) : Int))
        pic.BlockHeight (fun y h1 => generateAt pic block k y h1) h
        ⟨hinv.1, fun b hb => by rw [hinv.2.1 b hb]; simp [columnCount], by
          rw [hinv.2.2]; simp⟩
        (fun j u hj hu => by
          obtain ⟨bin, hbin256, hbin⟩ := hread k hk j hj
          have hcur := hu.2.1 bin hbin256
          refine ⟨_, generateAt_spec hbin hcur, by simpa using hu.1, ?_, ?_⟩
          · intro b hb
            rw [List.getElem?_set, columnCount_succ]
            by_cases hbb : bin = b
            · subst hbb
              have : bin < u.length := by rw [hu.1]; exact hbin256
              simp only [if_true, this, hbin]
              push_cast
              congr 1
            · have hne : tileBin pic block k j ≠ .ok b := by
                rw [hbin]
                intro hc
                cases hc
                exact hbb rfl
              simp only [hbb, if_false, hne, add_zero]
              exact hu.2.1 b hb
          · rw [sum_set_succ _ _ _ hcur, hu.2.2]
            push_cast
            omega)
      refine ⟨t, ht, hI.1, ?_, ?_⟩
      · intro b hb
        rw [hI.2.1 b hb, columnsCount_succ]
      · rw [hI.2.2]
        push_cast
        ring)
  refine ⟨h1, hrun, hlen, hcnt, ?_⟩
  rw [hsum]
  push_cast
  rw [Int.toNat_of_nonneg hbw, Int.toNat_of_nonneg hbh]

/-- Witness for C12: the single block of the 2 x 2 picture `[[10, 20], [30, 40]]`
after `setup(1, 1, 1.0)`. -/
theorem generate_counts_witness :
    ∃ h1, Histogram.Generate (List.replicate 256 0) singleTileSetup singleTileSetupBlock
        = .ok h1 ∧ h1.length = 256 ∧
      (∀ b < 256, h1[b]? = some ((tileCount singleTileSetup singleTileSetupBlock b : Nat) : Int)) ∧
      h1.sum = singleTileSetup.BlockWidth * singleTileSetup.BlockHeight :=
  generate_counts singleTileSetup singleTileSetupBlock (by decide) (by decide) (by decide)

/-! ### Notification counts -/

theorem sum_map_set {α : Type} (g : α → Nat) (l : List α) (i : Nat) (a0 a : α)
    (h : l[i]? = some a0) : ((l.set i a).map g).sum + g a0 = (l.map g).sum + g a := by
  induction l generalizing i with
  | nil => simp at h
  | cons c rest ih =>
    cases i with
    | zero =>
      simp only [List.getElem?_cons_zero, Option.some.injEq] at h
      subst h
      simp only [List.set_cons_zero, List.map_cons, List.sum_cons]
      omega
    | succ j =>
      simp only [List.getElem?_cons_succ] at h
      have := ih j h
      simp only [List.set_cons_succ, List.map_cons, List.sum_cons]
      omega

/-- Replacing the block `b` at a position by `b1` changes a sum over the grid by
`f b1 - f b`. -/
theorem gridSum_setBlock (f : Block → Nat) {pic pic1 : Picture} {y x : Int} {b b1 : Block}
    (hb : pic.block y x = .ok b) (hset : pic.setBlock y x b1 = .ok pic1) :
    gridSum f pic1 + f b = gridSum f pic + f b1 := by
  unfold Picture.block at hb
  simp only [bind_ok_iff] at hb
  obtain ⟨row, hrow, hbx⟩ := hb
  unfold Picture.setBlock at hset
  simp only [bind_ok_iff] at hset
  obtain ⟨row', hrow', row1, hrow1, rows, hrows, hpic⟩ := hset
  rw [hrow] at hrow'
  cases hrow'
  cases hpic
  obtain ⟨_, _, rfl⟩ := assign_eq_ok.mp hrows
  obtain ⟨_, _, rfl⟩ := assign_eq_ok.mp hrow1
  have e1 := sum_map_set f row x.toNat b b1 (index_eq_ok.mp hbx).2
  have e2 := sum_map_set (fun r : List Block => (r.map f).sum) pic.Blocks y.toNat row
    (row.set x.toNat b1) (index_eq_ok.mp hrow).2
  simp only [gridSum] at e2 ⊢
  omega

theorem gridSum_blocks (f : Block → Nat) {a b : Picture} (h : a.Blocks = b.Blocks) :
    gridSum f a = gridSum f b := by
  unfold gridSum
  rw [h]

theorem pleaseNotify_count {pic pic1 : Picture} {ref : Nat × Nat} {i : Nat}
    (h : pic.PleaseNotify ref i = .ok pic1) (j : Nat) :
    notifyCount pic1 j = notifyCount pic j + (if j = i then 1 else 0) := by
  unfold Picture.PleaseNotify at h
  simp only [bind_ok_iff] at h
  obtain ⟨b, hb, hset⟩ := h
  have := gridSum_setBlock (fun c => c.Notify.count j) hb hset
  simp only [List.count_append, List.count_singleton] at this
  unfold notifyCount
  by_cases hji : j = i
  · subst hji
    simp only [beq_self_eq_true, if_true] at this ⊢
    omega
  · have hij : (i == j) = false := by
      rw [beq_eq_false_iff_ne]
      exact fun hc => hji hc.symm
    simp only [hij, hji, if_false, Bool.false_eq_true] at this ⊢
    omega

theorem prepareSubBlock_count {subHeight top bottom offsetY : Int} {blockX : Nat}
    {pic pic1 : Picture} {offsetX offsetX1 : Int}
    (h : Picture.prepareSubBlock subHeight top bottom offsetY blockX (pic, offsetX)
      = .ok (pic1, offsetX1)) (j : Nat) :
    notifyCount pic1 j = notifyCount pic j + (if j = pic.SubBlocks.length then 4 else 0) := by
  unfold Picture.prepareSubBlock at h
  simp only [bind_ok_iff, Picture.blockRef] at h
  obtain ⟨tl, _, tr, _, bl, _, br, _, p1, hp1, p2, hp2, p3, hp3, p4, hp4, hres⟩ := h
  cases hres
  have c1 := pleaseNotify_count hp1 j
  have c2 := pleaseNotify_count hp2 j
  have c3 := pleaseNotify_count hp3 j
  have c4 := pleaseNotify_count hp4 j
  have e0 : notifyCount
      { pic with SubBlocks := pic.SubBlocks ++
          [⟨(axisCase pic.BlockCountX pic.BlockWidth blockX).1, subHeight, offsetX, offsetY,
            tl, tr, bl, br, 4⟩] } j = notifyCount pic j := rfl
  have e5 : notifyCount { p4 with WaitGroup := p4.WaitGroup + 1 } j = notifyCount p4 j := rfl
  rw [e5, c4, c3, c2, c1, e0]
  split <;> omega

theorem gridSum_eq_zero (f : Block → Nat) {pic : Picture}
    (h : ∀ row ∈ pic.Blocks, ∀ b ∈ row, f b = 0) : gridSum f pic = 0 := by
  unfold gridSum
  apply List.sum_eq_zero
  intro n hn
  rw [List.mem_map] at hn
  obtain ⟨row, hrow, rfl⟩ := hn
  apply List.sum_eq_zero
  intro m hm
  rw [List.mem_map] at hm
  obtain ⟨b, hb, rfl⟩ := hm
  exact h row hrow b hb

theorem gridSum_congr (f g : Block → Nat) {pic : Picture}
    (h : ∀ row ∈ pic.Blocks, ∀ b ∈ row, f b = g b) : gridSum f pic = gridSum g pic := by
  unfold gridSum
  congr 1
  apply List.map_congr_left
  intro row hrow
  congr 1
  apply List.map_congr_left
  intro b hb
  exact h row hrow b hb

theorem setBlock_inGrid {pic pic1 : Picture} {y x : Int} {b : Block}
    (hin : pic.InGrid) (h : pic.setBlock y x b = .ok pic1) : pic1.InGrid := by
  have hspec := setBlock_spec h
  have hfr := frame_geometry (setBlock_frame h).1
  -- the position that is written held a block before
  have hold : ∃ b0, pic.block y x = .ok b0 := by
    unfold Picture.setBlock at h
    simp only [bind_ok_iff] at h
    obtain ⟨row, hrow, row1, hrow1, _⟩ := h
    obtain ⟨hx0, hxlt, _⟩ := assign_eq_ok.mp hrow1
    obtain ⟨b0, hb0, _⟩ := index_ok_of_lt hx0 hxlt
    exact ⟨b0, by unfold Picture.block; simp only [bind_ok_iff]; exact ⟨row, hrow, hb0⟩⟩
  obtain ⟨b0, hb0⟩ := hold
  intro Y X c hc
  rw [hspec.2.2] at hc
  rw [hfr.1, hfr.2.1]
  split at hc
  · rename_i hpos
    rw [hpos.1, hpos.2]
    exact hin y x b0 hb0
  · exact hin Y X c hc

theorem pleaseNotify_inGrid {pic pic1 : Picture} {ref : Nat × Nat} {i : Nat}
    (hin : pic.InGrid) (h : pic.PleaseNotify ref i = .ok pic1) : pic1.InGrid := by
  unfold Picture.PleaseNotify at h
  simp only [bind_ok_iff] at h
  obtain ⟨b, _, hset⟩ := h
  exact setBlock_inGrid hin hset

theorem prepareSubBlock_inGrid {subHeight top bottom offsetY : Int} {blockX : Nat}
    {pic pic1 : Picture} {offsetX offsetX1 : Int} (hin : pic.InGrid)
    (h : Picture.prepareSubBlock subHeight top bottom offsetY blockX (pic, offsetX)
      = .ok (pic1, offsetX1)) : pic1.InGrid := by
  unfold Picture.prepareSubBlock at h
  simp only [bind_ok_iff, Picture.blockRef] at h
  obtain ⟨tl, _, tr, _, bl, _, br, _, p1, hp1, p2, hp2, p3, hp3, p4, hp4, hres⟩ := h
  cases hres
  have i0 : Picture.InGrid
      { pic with SubBlocks := pic.SubBlocks ++
          [⟨(axisCase pic.BlockCountX pic.BlockWidth blockX).1, subHeight, offsetX, offsetY,
            tl, tr, bl, br, 4⟩] } := hin
  have i4 : p4.InGrid := pleaseNotify_inGrid (pleaseNotify_inGrid (pleaseNotify_inGrid
    (pleaseNotify_inGrid i0 hp1) hp2) hp3) hp4
  exact i4

/-- A property kept by the creation of each sub-block is kept by
`PrepareInterpolation`. -/
theorem prepareInterpolation_inv (P : Picture → Prop)
    (hstep : ∀ (subHeight top bottom offsetY : Int) (blockX : Nat) (t t1 : Picture)
      (offsetX offsetX1 : Int), P t →
      Picture.prepareSubBlock subHeight top bottom offsetY blockX (t, offsetX)
        = .ok (t1, offsetX1) → P t1)
    {pic pic1 : Picture} (h0 : P pic) (h : pic.PrepareInterpolation = .ok pic1) : P pic1 := by
  unfold Picture.PrepareInterpolation at h
  simp only [bind_ok_iff] at h
  obtain ⟨r, hr, hpic⟩ := h
  cases hpic
  refine forRange_inv (fun (t : Picture × Int) => P t.1) _ _ _ _ ?_ h0 hr
  intro blockY t t1 _ ht hbody
  unfold Picture.prepareSubRow at hbody
  simp only [bind_ok_iff] at hbody
  obtain ⟨r1, hr1, ht1⟩ := hbody
  cases ht1
  refine forRange_inv (fun (u : Picture × Int) => P u.1) _ _ (t.1, 0) r1 ?_ ht hr1
  intro blockX u u1 _ hu hsub
  exact hstep _ _ _ _ blockX u.1 u1.1 u.2 u1.2 hu hsub

/-- After `prepareBlocks` every block is new apart from its pixel views, and the
blocks sit at the positions of the grid. -/
theorem prepareBlocks_fresh {pic pic1 : Picture} (h : pic.prepareBlocks = .ok pic1) :
    (∀ row ∈ pic1.Blocks, ∀ b ∈ row, b.Notify = [] ∧ b.Histogram = []) ∧ pic1.InGrid := by
  unfold Picture.prepareBlocks at h
  simp only [bind_ok_iff] at h
  obtain ⟨rows, hrows, h⟩ := h
  obtain ⟨hcount, rfl⟩ := make_eq_ok hrows
  have key := forRange_inv
    (fun t : Picture => t.frame = pic.frame ∧
      (∀ row ∈ t.Blocks, ∀ b ∈ row, b.Notify = [] ∧ b.Histogram = []) ∧ t.InGrid)
    _ _ _ _ ?_ ?_ h
  · exact ⟨key.2.1, key.2.2⟩
  · intro y t t1 hy ht hbody
    unfold Picture.prepareRow at hbody
    simp only [bind_ok_iff] at hbody
    obtain ⟨row, hrow, rows1, hrows1, hloop⟩ := hbody
    obtain ⟨_, rfl⟩ := make_eq_ok hrow
    obtain ⟨hy0, hylt, rfl⟩ := assign_eq_ok.mp hrows1
    obtain ⟨g1, g2, _, _⟩ := frame_geometry ht.1
    refine forRange_inv
      (fun u : Picture => u.frame = pic.frame ∧
        (∀ row ∈ u.Blocks, ∀ b ∈ row, b.Notify = [] ∧ b.Histogram = []) ∧ u.InGrid)
      _ _ _ _ ?_ ?_ hloop
    · intro x u u1 _ hu hstep
      simp only [bind_ok_iff] at hstep
      obtain ⟨views, _, hset⟩ := hstep
      refine ⟨(setBlock_frame hset).1.trans hu.1, ?_, setBlock_inGrid hu.2.2 hset⟩
      intro r hr c hc
      rcases (setBlock_spec hset).2.1 r hr c hc with rfl | ⟨r0, hr0, hc0⟩
      · exact ⟨rfl, rfl⟩
      · exact hu.2.1 r0 hr0 c hc0
    · refine ⟨ht.1, ?_, ?_⟩
      · intro r hr c hc
        rcases List.mem_or_eq_of_mem_set hr with hr1 | hr1
        · exact ht.2.1 r hr1 c hc
        · subst hr1
          rw [(List.mem_replicate.mp hc).2]
          exact ⟨rfl, rfl⟩
      · intro Y X c hc
        unfold Picture.block at hc
        simp only [bind_ok_iff] at hc
        obtain ⟨r, hr, hcx⟩ := hc
        have hr2 : index (t.Blocks.set (y : Int).toNat
            (List.replicate t.BlockCountX.toNat Block.new)) Y = .ok r := hr
        rw [index_set _ _ _ hylt] at hr2
        split at hr2
        · rename_i hYy
          cases hr2
          have hxlt := index_lt_length hcx
          have hx0 := (index_eq_ok.mp hcx).1
          simp only [List.length_replicate] at hxlt
          show 0 ≤ Y ∧ Y < t.BlockCountY ∧ 0 ≤ X ∧ X < t.BlockCountX
          rw [g2]
          have hyy : ((y : Int).toNat : Int) = y := by simp
          refine ⟨by omega, ?_, hx0, by omega⟩
          rw [hYy, hyy]
          omega
        · exact ht.2.2 Y X c (by
            unfold Picture.block
            simp only [bind_ok_iff]
            exact ⟨r, hr2, hcx⟩)
  · refine ⟨rfl, ?_, ?_⟩
    · intro r hr c hc
      rw [(List.mem_replicate.mp hr).2] at hc
      cases hc
    · intro Y X c hc
      unfold Picture.block at hc
      simp only [bind_ok_iff] at hc
      obtain ⟨r, hr, hcx⟩ := hc
      have hr2 := index_mem hr
      have : r = [] := (List.mem_replicate.mp hr2).2
      rw [this] at hcx
      have := index_lt_length hcx
      simp at this

theorem length_flatMap_const {α β : Type} (f : α → List β) (m : Nat)
    (hf : ∀ a, (f a).length = m) (l : List α) : (l.flatMap f).length = l.length * m := by
  induction l with
  | nil => simp
  | cons a rest ih =>
    simp only [List.flatMap_cons, List.length_append, List.length_cons, hf, ih]
    ring

theorem gridSubBlocks_length (pic : Picture) :
    (gridSubBlocks pic).length =
      (pic.BlockCountY + 1).toNat * (pic.BlockCountX + 1).toNat := by
  unfold gridSubBlocks
  rw [length_flatMap_const _ (pic.BlockCountX + 1).toNat (fun ky => by simp [gridSubRow])]
  simp

theorem setup_unfold {pic pic1 : Picture} {bx by1 : Int} {clip : Ratio}
    (h : pic.setup bx by1 clip = .ok pic1) :
    ∃ p5 p6 : Picture, p5.prepareBlocks = .ok p6 ∧
      Picture.PrepareInterpolation { p6 with SubBlocks := [], WaitGroup := 0 } = .ok pic1 := by
  unfold Picture.setup at h
  simp only at h
  split at h
  · cases h
  split at h
  · cases h
  simp only [bind_ok_iff] at h
  obtain ⟨p5, _, p6, h6, h7⟩ := h
  exact ⟨_, p6, h6, h7⟩

/-- The wiring after the set-up: the blocks sit at the grid positions, and every
sub-block created so far occurs exactly four times in the `Notify` lists. -/
theorem setup_wiring {pic pic1 : Picture} {bx by1 : Int} {clip : Ratio}
    (h : pic.setup bx by1 clip = .ok pic1) :
    pic1.InGrid ∧
    ∀ j, notifyCount pic1 j = if j < pic1.SubBlocks.length then 4 else 0 := by
  obtain ⟨p5, p6, h6, h7⟩ := setup_unfold h
  obtain ⟨hfresh, hgrid⟩ := prepareBlocks_fresh h6
  have h0 : Picture.InGrid { p6 with SubBlocks := [], WaitGroup := 0 } ∧
      ∀ j, notifyCount { p6 with SubBlocks := [], WaitGroup := 0 } j =
        if j < ({ p6 with SubBlocks := [], WaitGroup := 0 } : Picture).SubBlocks.length
          then 4 else 0 := by
    refine ⟨hgrid, fun j => ?_⟩
    have : notifyCount { p6 with SubBlocks := [], WaitGroup := 0 } j = 0 :=
      gridSum_eq_zero _ (fun row hrow b hb => by
        show b.Notify.count j = 0
        rw [(hfresh row hrow b hb).1]
        rfl)
    rw [this]
    simp
  exact prepareInterpolation_inv
    (fun t => t.InGrid ∧ ∀ j, notifyCount t j = if j < t.SubBlocks.length then 4 else 0)
    (fun subHeight top bottom offsetY blockX t t1 offsetX offsetX1 ht hsub => by
      refine ⟨prepareSubBlock_inGrid ht.1 hsub, fun j => ?_⟩
      have hlen := (prepareSubBlock_spec (Q := fun _ => True) hsub).2.1
      rw [prepareSubBlock_count hsub j, ht.2 j, hlen]
      simp only [List.length_append, List.length_singleton]
      split <;> split <;> split <;> omega)
    h0 h7

/-! ### The counters during the block phase -/

theorem subBlockDone_counters {pic pic1 : Picture} {i : Nat}
    (h : pic.subBlockDone i = .ok pic1) (j : Nat) :
    (pic1.SubBlocks[j]?).map (fun sb => sb.WaitGroup) =
      (pic.SubBlocks[j]?).map (fun sb => sb.WaitGroup - (if i = j then 1 else 0)) := by
  unfold Picture.subBlockDone at h
  simp only [bind_ok_iff] at h
  obtain ⟨sb0, hsb0, h⟩ := h
  split at h
  · cases h
  · simp only [bind_ok_iff] at h
    obtain ⟨subs, hsubs, h⟩ := h
    cases h
    rw [assign_natCast] at hsubs
    split at hsubs
    · rename_i hlt
      cases hsubs
      show ((pic.SubBlocks.set i _)[j]?).map _ = _
      rw [List.getElem?_set]
      have hget : pic.SubBlocks[i]? = some sb0 := by
        have := (index_eq_ok.mp hsb0).2
        simpa using this
      by_cases hij : i = j
      · subst hij
        simp [hlt, hget]
      · simp [hij]
    · cases hsubs

/-- Notifying the sub-blocks of a `Notify` list lowers each counter by the
number of its entries in the list. -/
theorem notifyAll_spec :
    ∀ (l : List Nat) (p t : Picture),
      l.foldlM (fun st sb => st.subBlockDone sb) p = .ok t →
      t.frame = p.frame ∧ t.Blocks = p.Blocks ∧
      ∀ j, (t.SubBlocks[j]?).map (fun sb => sb.WaitGroup) =
        (p.SubBlocks[j]?).map (fun sb => sb.WaitGroup - (l.count j : Int)) := by
  intro l
  induction l with
  | nil =>
    intro p t h
    simp only [List.foldlM_nil] at h
    cases h
    refine ⟨rfl, rfl, fun j => ?_⟩
    cases p.SubBlocks[j]? <;> simp
  | cons a rest ih =>
    intro p t h
    rw [List.foldlM_cons] at h
    simp only [bind_ok_iff] at h
    obtain ⟨u, hu, hrest⟩ := h
    obtain ⟨f1, b1, _⟩ := subBlockDone_spec hu
    obtain ⟨f2, b2, c2⟩ := ih u t hrest
    refine ⟨f2.trans f1, b2.trans b1, fun j => ?_⟩
    rw [c2 j]
    have c1 := subBlockDone_counters hu j
    cases hu1 : u.SubBlocks[j]? with
    | none =>
      rw [hu1] at c1
      cases hp : p.SubBlocks[j]? with
      | none => rfl
      | some sp => rw [hp] at c1; simp at c1
    | some su =>
      rw [hu1] at c1
      cases hp : p.SubBlocks[j]? with
      | none => rw [hp] at c1; simp at c1
      | some sp =>
        rw [hp] at c1
        simp only [Option.map_some', Option.some.injEq] at c1 ⊢
        rw [c1, List.count_cons]
        by_cases haj : a = j
        · subst haj
          simp
          omega
        · have : (a == j) = false := by rw [beq_eq_false_iff_ne]; exact haj
          have hja : (j == a) = false := by
            rw [beq_eq_false_iff_ne]; exact fun hc => haj hc.symm
          simp [haj, hja]

theorem runInv_congr {s t : Picture} {d1 d2 : Int → Int → Prop}
    (hiff : ∀ Y X, d1 Y X ↔ d2 Y X) (h : RunInv s d1 t) : RunInv s d2 t := by
  have : d1 = d2 := by
    funext Y X
    exact propext (hiff Y X)
  rw [← this]
  exact h

theorem inGrid_congr {a b : Picture} (hf : a.frame = b.frame) (hb : a.Blocks = b.Blocks)
    (h : b.InGrid) : a.InGrid := by
  obtain ⟨g1, g2, _, _⟩ := frame_geometry hf
  intro Y X c hc
  rw [g1, g2]
  apply h Y X c
  unfold Picture.block at hc ⊢
  rw [← hb]
  exact hc

theorem calculateHistogram_unfold {pic pic1 : Picture} {x y : Int}
    (h : pic.CalculateHistogram x y = .ok pic1) :
    ∃ (block : Block) (hist : Histogram) (p1 : Picture),
      pic.block y x = .ok block ∧ hist.length = 256 ∧
      pic.setBlock y x { block with Histogram := hist } = .ok p1 ∧
      block.Notify.foldlM (fun st sb => st.subBlockDone sb) p1 = .ok pic1 := by
  unfold Picture.CalculateHistogram at h
  simp only [bind_ok_iff] at h
  obtain ⟨block, hblock, h0, hh0, h1, hgen, h2, hclip, p1, hset, hdone⟩ := h
  obtain ⟨_, rfl⟩ := make_eq_ok hh0
  refine ⟨block, _, p1, hblock, ?_, hset, hdone⟩
  unfold Histogram.Map
  rw [mapLoop_length, clip_length hclip, generate_length hgen]
  simp

/-- One block's `CalculateHistogram` keeps the invariant of the block phase. -/
theorem runInv_step {s t t1 : Picture} {done : Int → Int → Prop} {x y : Int}
    (hinv : RunInv s done t) (hnew : ¬ done y x)
    (h : t.CalculateHistogram x y = .ok t1) :
    RunInv s (fun Y X => done Y X ∨ (Y = y ∧ X = x)) t1 := by
  obtain ⟨hfr, hgrid, hhist, hcnt⟩ := hinv
  obtain ⟨block, hist, p1, hblock, hlen, hset, hdone⟩ := calculateHistogram_unfold h
  obtain ⟨f1, s1, _⟩ := setBlock_frame hset
  obtain ⟨f2, b2, c2⟩ := notifyAll_spec _ _ _ hdone
  have hempty : block.Histogram = [] := (hhist y x block hblock).2 hnew
  have hne : hist ≠ [] := by
    intro hc
    rw [hc] at hlen
    simp at hlen
  have hblk : ∀ Y X, t1.block Y X = if Y = y ∧ X = x
      then .ok { block with Histogram := hist } else t.block Y X := by
    intro Y X
    rw [← (setBlock_spec hset).2.2 Y X]
    unfold Picture.block
    rw [b2]
  refine ⟨f2.trans (f1.trans hfr), inGrid_congr f2 b2 (setBlock_inGrid hgrid hset), ?_, ?_⟩
  · intro Y X b hb
    rw [hblk] at hb
    split at hb
    · rename_i hpos
      cases hb
      exact ⟨fun _ => hne, fun hc => absurd (Or.inr hpos) hc⟩
    · rename_i hpos
      obtain ⟨a1, a2⟩ := hhist Y X b hb
      refine ⟨fun hd => ?_, fun hd => a2 (fun hc => hd (Or.inl hc))⟩
      rcases hd with hd | hd
      · exact a1 hd
      · exact absurd hd hpos
  · intro j sb1 hsb1
    have hc := c2 j
    rw [hsb1, s1] at hc
    cases ht : t.SubBlocks[j]? with
    | none => rw [ht] at hc; simp at hc
    | some sb =>
      rw [ht] at hc
      simp only [Option.map_some', Option.some.injEq] at hc
      have hsum := gridSum_setBlock
        (fun b => if b.Histogram = [] then b.Notify.count j else 0) hblock hset
      simp only [hempty, if_true, if_neg hne] at hsum
      have hp : pendingCount t1 j = pendingCount p1 j := gridSum_blocks _ b2
      rw [hc, hcnt j sb ht, hp]
      unfold pendingCount
      omega

theorem subBlockDone_length {pic pic1 : Picture} {i : Nat}
    (h : pic.subBlockDone i = .ok pic1) : pic1.SubBlocks.length = pic.SubBlocks.length := by
  unfold Picture.subBlockDone at h
  simp only [bind_ok_iff] at h
  obtain ⟨sb0, _, h⟩ := h
  split at h
  · cases h
  · simp only [bind_ok_iff] at h
    obtain ⟨subs, hsubs, h⟩ := h
    cases h
    obtain ⟨_, _, rfl⟩ := assign_eq_ok.mp hsubs
    simp

theorem runBlocks_length {pic pic1 : Picture} (h : pic.runBlocks = .ok pic1) :
    pic1.SubBlocks.length = pic.SubBlocks.length := by
  unfold Picture.runBlocks at h
  refine forRange_inv (fun t : Picture => t.SubBlocks.length = pic.SubBlocks.length)
    _ _ _ _ ?_ rfl h
  intro x t t1 _ ht hbody
  refine forRange_inv (fun u : Picture => u.SubBlocks.length = pic.SubBlocks.length)
    _ _ _ _ ?_ ht hbody
  intro y u u1 _ hu hcalc
  obtain ⟨block, hist, p1, _, _, hset, hdone⟩ := calculateHistogram_unfold hcalc
  have hp1 : p1.SubBlocks.length = pic.SubBlocks.length := by
    rw [(setBlock_frame hset).2.1]; exact hu
  exact foldlM_inv (fun t : Picture => t.SubBlocks.length = pic.SubBlocks.length)
    (fun st sb => st.subBlockDone sb) block.Notify p1 u1
    (fun a _ w w1 hw hbody => (subBlockDone_length hbody).trans hw) hp1 hdone

/-- After the block phase, started with no histogram computed and every counter
equal to the number of the sub-block's `Notify` entries, every block has run
and every counter is zero. -/
theorem runBlocks_counters {s t : Picture}
    (hinit : RunInv s (fun _ _ => False) s) (h : s.runBlocks = .ok t) :
    ∀ sb ∈ t.SubBlocks, sb.WaitGroup = 0 := by
  unfold Picture.runBlocks at h
  have outer := forRange_ind
    (fun k (u : Picture) => RunInv s
      (fun Y X => 0 ≤ Y ∧ 0 ≤ X ∧ X < (k : Int) ∧
        Y < ((s.BlockCountY.toNat : Nat) : Int)) u) _ _ _ _
    (runInv_congr (fun Y X => by
      constructor
      · intro hc; exact hc.elim
      · intro hc; omega) hinit)
    (fun k u u1 _ hu hbody => by
      have inner := forRange_ind
        (fun j (w : Picture) => RunInv s
          (fun Y X => 0 ≤ Y ∧ 0 ≤ X ∧
            ((X < (k : Int) ∧ Y < ((s.BlockCountY.toNat : Nat) : Int)) ∨
              (X = (k : Int) ∧ Y < (j : Int)))) w) _ _ _ _
        (runInv_congr (fun Y X => by omega) hu)
        (fun j w w1 hj hw hcalc => by
          refine runInv_congr (fun Y X => ?_) (runInv_step hw (by omega) hcalc)
          omega) hbody
      exact runInv_congr (fun Y X => by omega) inner) h
  obtain ⟨hfr, hgrid, hhist, hcnt⟩ := outer
  obtain ⟨g1, g2, _, _⟩ := frame_geometry hfr
  intro sb hsb
  obtain ⟨j, hj⟩ := List.mem_iff_getElem?.mp hsb
  rw [hcnt j sb hj]
  have : pendingCount t j = 0 := by
    apply gridSum_eq_zero
    intro row hrow b hb
    obtain ⟨Y, hY⟩ := List.mem_iff_getElem?.mp hrow
    obtain ⟨X, hX⟩ := List.mem_iff_getElem?.mp hb
    have hblock : t.block (Y : Int) (X : Int) = .ok b := by
      unfold Picture.block
      simp only [bind_ok_iff]
      exact ⟨row, by simp [hY], by simp [hX]⟩
    obtain ⟨_, hYlt, _, hXlt⟩ := hgrid _ _ _ hblock
    have hdone := (hhist _ _ _ hblock).1 ⟨by omega, by omega, by omega, by omega⟩
    simp [hdone]
  rw [this]
  rfl

/-! ### The counters never go below zero -/

theorem bind_ne_error {α β : Type} {x : Except Failure α} {f : α → Except Failure β}
    {e : Failure} (hx : x ≠ .error e) (hf : ∀ a, x = .ok a → f a ≠ .error e) :
    (x >>= f) ≠ .error e := by
  cases x with
  | error e1 =>
    intro hc
    apply hx
    simpa [bind, Except.bind] using hc
  | ok a => exact hf a rfl

/-- Loop rule for a failure that no iteration started in the invariant raises. -/
theorem forRange_safe {σ : Type} (e : Failure) (I : Nat → σ → Prop) (n : Int)
    (body : Nat → σ → Except Failure σ) (s : σ) (h0 : I 0 s)
    (hstep : ∀ i t t1, i < n.toNat → I i t → body i t = .ok t1 → I (i + 1) t1)
    (hsafe : ∀ i t, i < n.toNat → I i t → body i t ≠ .error e) :
    forRange n body s ≠ .error e := by
  have key : ∀ k : Nat, k ≤ n.toNat → forRange (k : Int) body s ≠ .error e := by
    intro k
    induction k with
    | zero =>
      intro _
      rw [forRange_nonpos _ (by simp)]
      simp
    | succ k ih =>
      intro hk
      rw [forRange_succ]
      refine bind_ne_error (ih (by omega)) (fun u hu => ?_)
      have hI : I k u := by
        have := forRange_ind I (k : Int) body s u h0
          (fun i t t1 hi => hstep i t t1 (by simp at hi; omega)) hu
        simpa using this
      exact hsafe k u (by omega) hI
  rw [← forRange_toNat]
  exact key n.toNat le_rfl

theorem index_safe {α : Type} (s : List α) (i : Int) :
    index s i ≠ .error .negativeWaitGroup := by
  unfold index
  split
  · simp
  · split <;> simp

theorem assign_safe {α : Type} (s : List α) (i : Int) (a : α) :
    assign s i a ≠ .error .negativeWaitGroup := by
  unfold assign
  split
  · simp
  · split <;> simp

theorem block_safe (pic : Picture) (y x : Int) :
    pic.block y x ≠ .error .negativeWaitGroup := by
  unfold Picture.block
  exact bind_ne_error (index_safe _ _) (fun _ _ => index_safe _ _)

theorem setBlock_safe (pic : Picture) (y x : Int) (b : Block) :
    pic.setBlock y x b ≠ .error .negativeWaitGroup := by
  unfold Picture.setBlock
  refine bind_ne_error (index_safe _ _) (fun _ _ => ?_)
  refine bind_ne_error (assign_safe _ _ _) (fun _ _ => ?_)
  refine bind_ne_error (assign_safe _ _ _) (fun _ _ => ?_)
  simp [pure, Except.pure]

theorem generate_safe (histogram : Histogram) (pic : Picture) (block : Block) :
    Histogram.Generate histogram pic block ≠ .error .negativeWaitGroup := by
  unfold Histogram.Generate
  refine forRange_safe _ (fun _ _ => True) _ _ _ trivial (fun _ _ _ _ _ _ => trivial)
    (fun x h _ _ => ?_)
  refine forRange_safe _ (fun _ _ => True) _ _ _ trivial (fun _ _ _ _ _ _ => trivial)
    (fun y h1 _ _ => ?_)
  unfold generateAt
  refine bind_ne_error ?_ (fun p _ => ?_)
  · unfold Block.pixel
    refine bind_ne_error (index_safe _ _) (fun v _ => ?_)
    split
    · simp
    · unfold Picture.pixel
      exact bind_ne_error (index_safe _ _) (fun _ _ => index_safe _ _)
  · refine bind_ne_error (index_safe _ _) (fun bin _ => ?_)
    exact bind_ne_error (index_safe _ _) (fun _ _ => assign_safe _ _ _)

theorem clip_safe (histogram : Histogram) (limit : Int) :
    Histogram.Clip histogram limit ≠ .error .negativeWaitGroup := by
  unfold Histogram.Clip
  simp only
  split
  · simp
  · split <;> simp

theorem block_le_gridSum (f : Block → Nat) {pic : Picture} {y x : Int} {b : Block}
    (hb : pic.block y x = .ok b) : f b ≤ gridSum f pic := by
  obtain ⟨row, hrow, hbrow⟩ := block_mem hb
  unfold gridSum
  have h1 : f b ≤ (row.map f).sum :=
    List.single_le_sum (fun _ _ => Nat.zero_le _) _ (List.mem_map_of_mem f hbrow)
  have h2 : (row.map f).sum ≤ (pic.Blocks.map (fun row => (row.map f).sum)).sum :=
    List.single_le_sum (fun _ _ => Nat.zero_le _) _
      (List.mem_map_of_mem (fun row => (row.map f).sum) hrow)
  exact h1.trans h2

/-- Notifying the sub-blocks of a `Notify` list never drives a counter below
zero when every counter is at least the number of its entries in the list. -/
theorem notifyAll_safe :
    ∀ (l : List Nat) (p : Picture),
      (∀ j sb, p.SubBlocks[j]? = some sb → (l.count j : Int) ≤ sb.WaitGroup) →
      l.foldlM (fun st sb => st.subBlockDone sb) p ≠ .error .negativeWaitGroup := by
  intro l
  induction l with
  | nil =>
    intro p _
    simp [List.foldlM_nil, pure, Except.pure]
  | cons a rest ih =>
    intro p hp
    rw [List.foldlM_cons]
    refine bind_ne_error ?_ (fun u hu => ?_)
    · unfold Picture.subBlockDone
      refine bind_ne_error (index_safe _ _) (fun sb0 hsb0 => ?_)
      have hget : p.SubBlocks[a]? = some sb0 := by
        have := (index_eq_ok.mp hsb0).2
        simpa using this
      have hle := hp a sb0 hget
      rw [List.count_cons_self] at hle
      have hpos : ¬ sb0.WaitGroup - 1 < 0 := by
        push_cast at hle
        omega
      rw [if_neg hpos]
      refine bind_ne_error (assign_safe _ _ _) (fun _ _ => ?_)
      simp [pure, Except.pure]
    · apply ih u
      intro j sb hsb
      have c1 := subBlockDone_counters hu j
      rw [hsb] at c1
      cases hpj : p.SubBlocks[j]? with
      | none => rw [hpj] at c1; simp at c1
      | some sp =>
        rw [hpj] at c1
        simp only [Option.map_some', Option.some.injEq] at c1
        have hle := hp j sp hpj
        rw [List.count_cons] at hle
        rw [c1]
        by_cases haj : a = j
        · subst haj
          simp at hle ⊢
          omega
        · have hb : (a == j) = false := by rw [beq_eq_false_iff_ne]; exact haj
          simp [haj, hb] at hle ⊢
          omega

/-- One block's `CalculateHistogram`, run in a state of the block phase for a
block that has not run yet, drives no counter below zero. -/
theorem calculateHistogram_safe {s t : Picture} {done : Int → Int → Prop} {x y : Int}
    (hinv : RunInv s done t) (hnew : ¬ done y x) :
    t.CalculateHistogram x y ≠ .error .negativeWaitGroup := by
  obtain ⟨hfr, hgrid, hhist, hcnt⟩ := hinv
  unfold Picture.CalculateHistogram
  refine bind_ne_error (block_safe _ _ _) (fun block hblock => ?_)
  refine bind_ne_error (by unfold make; split <;> simp) (fun h0 _ => ?_)
  refine bind_ne_error (generate_safe _ _ _) (fun h1 _ => ?_)
  refine bind_ne_error (clip_safe _ _) (fun h2 _ => ?_)
  refine bind_ne_error (setBlock_safe _ _ _ _) (fun p1 hset => ?_)
  apply notifyAll_safe
  intro j sb hsb
  rw [(setBlock_frame hset).2.1] at hsb
  rw [hcnt j sb hsb]
  have hempty : block.Histogram = [] := (hhist y x block hblock).2 hnew
  have hle := block_le_gridSum
    (fun b => if b.Histogram = [] then b.Notify.count j else 0) hblock
  simp only [hempty, if_true] at hle
  unfold pendingCount
  exact_mod_cast hle

/-- The block phase, started with no histogram computed and every counter equal
to the number of the sub-block's `Notify` entries, never drives a counter below
zero. -/
theorem runBlocks_safe {s : Picture} (hinit : RunInv s (fun _ _ => False) s) :
    s.runBlocks ≠ .error .negativeWaitGroup := by
  unfold Picture.runBlocks
  have hinner : ∀ (k : Nat) (u : Picture),
      RunInv s (fun Y X => 0 ≤ Y ∧ 0 ≤ X ∧ X < (k : Int) ∧
        Y < ((s.BlockCountY.toNat : Nat) : Int)) u →
      RunInv s (fun Y X => 0 ≤ Y ∧ 0 ≤ X ∧
        ((X < (k : Int) ∧ Y < ((s.BlockCountY.toNat : Nat) : Int)) ∨
          (X = (k : Int) ∧ Y < ((0 : Nat) : Int)))) u :=
    fun k u hu => runInv_congr (fun Y X => by omega) hu
  have hstep : ∀ (k j : Nat) (w w1 : Picture), j < s.BlockCountY.toNat →
      RunInv s (fun Y X => 0 ≤ Y ∧ 0 ≤ X ∧
        ((X < (k : Int) ∧ Y < ((s.BlockCountY.toNat : Nat) : Int)) ∨
          (X = (k : Int) ∧ Y < (j : Int)))) w →
      w.CalculateHistogram k j = .ok w1 →
      RunInv s (fun Y X => 0 ≤ Y ∧ 0 ≤ X ∧
        ((X < (k : Int) ∧ Y < ((s.BlockCountY.toNat : Nat) : Int)) ∨
          (X = (k : Int) ∧ Y < ((j + 1 : Nat) : Int)))) w1 := by
    intro k j w w1 hj hw hcalc
    refine runInv_congr (fun Y X => ?_) (runInv_step hw (by omega) hcalc)
    omega
  refine forRange_safe _
    (fun k (u : Picture) => RunInv s
      (fun Y X => 0 ≤ Y ∧ 0 ≤ X ∧ X < (k : Int) ∧
        Y < ((s.BlockCountY.toNat : Nat) : Int)) u) _ _ _
    (runInv_congr (fun Y X => by
      constructor
      · intro hc; exact hc.elim
      · intro hc; omega) hinit)
    (fun k u u1 _ hu hbody => ?_) (fun k u _ hu => ?_)
  · have inner := forRange_ind
      (fun j (w : Picture) => RunInv s
        (fun Y X => 0 ≤ Y ∧ 0 ≤ X ∧
          ((X < (k : Int) ∧ Y < ((s.BlockCountY.toNat : Nat) : Int)) ∨
            (X = (k : Int) ∧ Y < (j : Int)))) w) _ _ _ _
      (hinner k u hu) (fun j w w1 hj hw hcalc => hstep k j w w1 hj hw hcalc) hbody
    exact runInv_congr (fun Y X => by omega) inner
  · exact forRange_safe _
      (fun j (w : Picture) => RunInv s
        (fun Y X => 0 ≤ Y ∧ 0 ≤ X ∧
          ((X < (k : Int) ∧ Y < ((s.BlockCountY.toNat : Nat) : Int)) ∨
            (X = (k : Int) ∧ Y < (j : Int)))) w) _ _ _
      (hinner k u hu) (fun j w w1 hj hw hcalc => hstep k j w w1 hj hw hcalc)
      (fun j w hj hw => calculateHistogram_safe hw (by omega))

/-! ### Dependency wiring -/

/-- C16: after the set-up with tile counts `>= 1`, `PrepareInterpolation` has
created exactly `(tileCountX+1)*(tileCountY+1)` sub-blocks, each with a counter
of 4 and each occurring exactly 4 times in the `Notify` lists of all blocks
together; the block phase never drives a counter below zero, and when it
returns, every block has run `CalculateHistogram` once and the counter of
every sub-block is 0. -/
theorem dependency_wiring (pic pic1 : Picture) (blockCountX blockCountY : Int)
    (clipLimit : Ratio) (hbx : 1 ≤ blockCountX) (hby : 1 ≤ blockCountY)
    (h : pic.setup blockCountX blockCountY clipLimit = .ok pic1) :
    (pic1.SubBlocks.length : Int) = (blockCountX + 1) * (blockCountY + 1) ∧
    (∀ sb ∈ pic1.SubBlocks, sb.WaitGroup = 4) ∧
    (∀ i < pic1.SubBlocks.length, notifyCount pic1 i = 4) ∧
    (∀ i, pic1.SubBlocks.length ≤ i → notifyCount pic1 i = 0) ∧
    pic1.runBlocks ≠ .error .negativeWaitGroup ∧
    (∀ pic2, pic1.runBlocks = .ok pic2 →
      pic2.SubBlocks.length = pic1.SubBlocks.length ∧
      ∀ sb ∈ pic2.SubBlocks, sb.WaitGroup = 0) := by
  obtain ⟨_, _, _, _, _, _, _, sBX, sBY, _, _, _, _, hhist, _⟩ :=
    setup_spec (R := fun _ => True) (fun _ _ _ _ _ _ _ _ _ _ _ => trivial) h
  obtain ⟨hgrid, hcount⟩ := setup_wiring h
  have hsubs := setup_subBlocks h
  have hwg : ∀ sb ∈ pic1.SubBlocks, sb.WaitGroup = 4 := by
    intro sb hsb
    rw [hsubs] at hsb
    obtain ⟨kx, ky, _, _, rfl⟩ := mem_gridSubBlocks hsb
    rfl
  have hinit : RunInv pic1 (fun _ _ => False) pic1 := by
    refine ⟨rfl, hgrid, ?_, ?_⟩
    · intro Y X b hb
      obtain ⟨row, hrow, hbrow⟩ := block_mem hb
      exact ⟨fun hc => hc.elim, fun _ => hhist row hrow b hbrow⟩
    · intro j sb hsb
      have hj : j < pic1.SubBlocks.length := (List.getElem?_eq_some_iff.mp hsb).1
      have hmem : sb ∈ pic1.SubBlocks := List.mem_iff_getElem?.mpr ⟨j, hsb⟩
      have hp : pendingCount pic1 j = notifyCount pic1 j :=
        gridSum_congr _ _ (fun row hrow b hb => by
          simp [hhist row hrow b hb])
      rw [hp, hcount j, if_pos hj, hwg sb hmem]
      rfl
  refine ⟨?_, hwg, ?_, ?_, runBlocks_safe hinit, ?_⟩
  · rw [hsubs, gridSubBlocks_length, sBX, sBY]
    push_cast
    rw [Int.toNat_of_nonneg (by omega), Int.toNat_of_nonneg (by omega)]
    ring
  · intro i hi
    rw [hcount i, if_pos hi]
  · intro i hi
    rw [hcount i, if_neg (by omega)]
  · intro pic2 hrun
    exact ⟨runBlocks_length hrun, runBlocks_counters hinit hrun⟩

/-- Witness for C16: the 4 x 4 picture with 2 x 2 tiles has 9 sub-blocks, each
notified 4 times, and all counters are 0 after the block phase. -/
theorem dependency_wiring_witness :
    gridExample.setup 2 2 ⟨1, 1⟩ = .ok gridSetup ∧
    gridSetup.runBlocks = .ok gridBlocksDone ∧
    (gridSetup.SubBlocks.length : Int) = ((2 : Int) + 1) * ((2 : Int) + 1) ∧
    (∀ sb ∈ gridSetup.SubBlocks, sb.WaitGroup = 4) ∧
    (∀ i < gridSetup.SubBlocks.length, notifyCount gridSetup i = 4) ∧
    (∀ i, gridSetup.SubBlocks.length ≤ i → notifyCount gridSetup i = 0) ∧
    gridSetup.runBlocks ≠ .error .negativeWaitGroup ∧
    gridBlocksDone.SubBlocks.length = gridSetup.SubBlocks.length ∧
    ∀ sb ∈ gridBlocksDone.SubBlocks, sb.WaitGroup = 0 :=
  have w := dependency_wiring gridExample gridSetup 2 2 ⟨1, 1⟩ (by decide) (by decide)
    (by decide)
  ⟨by decide, by decide, w.1, w.2.1, w.2.2.1, w.2.2.2.1, w.2.2.2.2.1,
    w.2.2.2.2.2 gridBlocksDone (by decide)⟩

end Clahe
